import Mathlib

/-!
# kube-arbitrator: resource vectors and scheduler-plugin score aggregation

A shallow embedding of `pkg/scheduler/api/resource_info.go` and
`contrib/scheduler-plugin/plugin_manager.go`.

Modelling conventions.

* A `float64` is a value of `F64`: a finite value, given by the rational number it denotes,
  one of the two infinities, or NaN.  The two zeros are identified: no operation of these
  packages tells them apart.  Comparisons follow IEEE 754 (every comparison with NaN is
  false); `+` and `-` return the exact result rounded to the nearest double, ties to even
  (`roundF64`, 53-bit significands, gradual underflow), overflowing to an infinity.
* Go `int` is the 64-bit two's-complement integer: `+=` wraps (`wrapInt`).  The conversion
  `int(v)` of a `float64` discards the fraction; where the result does not fit an `int`, or `v`
  is NaN or infinite, the Go specification leaves the value to the implementation and the
  model takes the value of the amd64 target, the smallest `int` (`truncToInt`).
* A Go map is an association list with distinct keys (`AList`); a `range` loop visits the
  entries in the order of the list, so a statement about all maps is a statement about all
  iteration orders.  The demand map of `AssessTaskAndNode` is passed as the sequence in which
  `range` yields its entries.
* `panic` is the `none` result.
* Plugin hooks are functions of their arguments.
-/

namespace KubeArbitrator

/-! ## Numbers -/

/-- Nearest integer to `k`, a tie going to the even neighbour. -/
def roundHalfEven (k : ℚ) : ℤ :=
  let f := ⌊k⌋
  if k - f < 1 / 2 then f
  else if 1 / 2 < k - f then f + 1
  else if f % 2 = 0 then f else f + 1

/-- Exponent of the unit in the last place of the double nearest to `q`: the binade of `q`
(never below the smallest normal binade `-1022`) less the 52 fraction bits. -/
def ulpExp (q : ℚ) : ℤ := max (Int.log 2 |q|) (-1022) - 52

/-- Rounding of an exact result to 53 significant bits: nearest multiple of the unit in the
last place, ties to even, before the check for overflow. -/
def roundF64 (q : ℚ) : ℚ := roundHalfEven (q / 2 ^ ulpExp q) * 2 ^ ulpExp q

/-- A Go `float64`. -/
inductive F64 where
  | fin (q : ℚ)
  | pinf
  | ninf
  | nan
  deriving DecidableEq

/-- The `float64` an exact result is delivered as: the rounded value, or an infinity when the
rounded value is `2 ^ 1024` or more in magnitude. -/
def F64.ofRat (q : ℚ) : F64 :=
  if |roundF64 q| < 2 ^ 1024 then .fin (roundF64 q)
  else if q < 0 then .ninf else .pinf

/-- Go `x + y` on `float64`. -/
def f64add : F64 → F64 → F64
  | .nan, _ => .nan
  | _, .nan => .nan
  | .pinf, .ninf => .nan
  | .ninf, .pinf => .nan
  | .pinf, _ => .pinf
  | _, .pinf => .pinf
  | .ninf, _ => .ninf
  | _, .ninf => .ninf
  | .fin p, .fin q => F64.ofRat (p + q)

/-- Go `x - y` on `float64`. -/
def f64sub : F64 → F64 → F64
  | .nan, _ => .nan
  | _, .nan => .nan
  | .pinf, .pinf => .nan
  | .ninf, .ninf => .nan
  | .pinf, _ => .pinf
  | _, .ninf => .pinf
  | .ninf, _ => .ninf
  | _, .pinf => .ninf
  | .fin p, .fin q => F64.ofRat (p - q)

/-- Go `math.Abs`. -/
def F64.abs : F64 → F64
  | .fin q => .fin |q|
  | .pinf => .pinf
  | .ninf => .pinf
  | .nan => .nan

/-- Go `x < y` on `float64`. -/
def F64.lt : F64 → F64 → Bool
  | .fin p, .fin q => decide (p < q)
  | .fin _, .pinf => true
  | .ninf, .fin _ => true
  | .ninf, .pinf => true
  | _, _ => false

/-- Go `x == y` on `float64`. -/
def F64.eq : F64 → F64 → Bool
  | .fin p, .fin q => decide (p = q)
  | .pinf, .pinf => true
  | .ninf, .ninf => true
  | _, _ => false

/-- Go `x > y` on `float64`. -/
def F64.gt (x y : F64) : Bool := F64.lt y x

/-- Go `x >= y` on `float64`. -/
def F64.ge (x y : F64) : Bool := F64.lt y x || F64.eq x y

/-- Whether `x` is a finite double: a finite value that the rounding to `float64` leaves
unchanged. -/
def F64.isFinite : F64 → Bool
  | .fin q => decide (F64.ofRat q = .fin q)
  | _ => false

instance : LT F64 := ⟨fun x y => F64.lt x y = true⟩

instance : LE F64 := ⟨fun x y => F64.ge y x = true⟩

instance (x y : F64) : Decidable (x < y) := inferInstanceAs (Decidable (F64.lt x y = true))

instance (x y : F64) : Decidable (x ≤ y) := inferInstanceAs (Decidable (F64.ge y x = true))

/-- Two's-complement wrap of an exact integer into the range of Go `int` (64 bits). -/
def wrapInt (x : ℤ) : ℤ := (x + 2 ^ 63) % 2 ^ 64 - 2 ^ 63

/-- The integer a finite value is truncated to: the fraction is discarded (truncation toward
zero). -/
def truncate (q : ℚ) : ℤ := if 0 ≤ q then ⌊q⌋ else ⌈q⌉

/-- Go `int(v)` for a `float64` `v`: the truncated value when it fits an `int`; otherwise, and
for NaN and the infinities, the smallest `int`, as the amd64 target delivers it. -/
def truncToInt : F64 → ℤ
  | .fin q => if -2 ^ 63 ≤ truncate q ∧ truncate q < 2 ^ 63 then truncate q else -2 ^ 63
  | _ => -2 ^ 63

/-! ## `resource_info.go` -/

/-- Mirrors `v1.ResourceName`, a string type. -/
abbrev ResourceName := String

/-- Mirrors `map[v1.ResourceName]float64`. -/
abbrev ExtendMap := AList (fun _ : ResourceName => F64)

/-- Mirrors `v1.ResourceCPU`. -/
def ResourceCPU : ResourceName := "cpu"

/-- Mirrors `v1.ResourceMemory`. -/
def ResourceMemory : ResourceName := "memory"

/-- Mirrors the constant `GPUResourceName`. -/
def GPUResourceName : ResourceName := "nvidia.com/gpu"

/-- Mirrors `type Resource struct`. -/
structure Resource where
  MilliCPU : F64
  Memory : F64
  MilliGPU : F64
  ExtendDevices : ExtendMap

/-- Mirrors `var minMilliCPU float64 = 10`. -/
def minMilliCPU : F64 := .fin 10

/-- Mirrors `var minMilliGPU float64 = 10`. -/
def minMilliGPU : F64 := .fin 10

/-- Mirrors `var minMemory float64 = 10 * 1024 * 1024`. -/
def minMemory : F64 := .fin (10 * 1024 * 1024)

/-- Mirrors `EmptyResource`. -/
def EmptyResource : Resource :=
  { MilliCPU := .fin 0, Memory := .fin 0, MilliGPU := .fin 0, ExtendDevices := ∅ }

/-- Mirrors `Resource.Clone`: the scalars are copied and every entry is stored into a fresh
map. -/
def Resource.Clone (r : Resource) : Resource :=
  { MilliCPU := r.MilliCPU
    Memory := r.Memory
    MilliGPU := r.MilliGPU
    ExtendDevices := r.ExtendDevices.foldl (fun clone k v => clone.insert k v) ∅ }

/-- Mirrors `Resource.IsEmpty`. -/
def Resource.IsEmpty (r : Resource) : Bool :=
  F64.lt r.MilliCPU minMilliCPU && F64.lt r.Memory minMemory && F64.lt r.MilliGPU minMilliGPU

/-- Mirrors `Resource.IsZero`; reading an absent key of a Go map yields `0`. -/
def Resource.IsZero (r : Resource) (rn : ResourceName) : Bool :=
  if rn = ResourceCPU then F64.lt r.MilliCPU minMilliCPU
  else if rn = ResourceMemory then F64.lt r.Memory minMemory
  else if rn = GPUResourceName then F64.lt r.MilliGPU minMilliGPU
  else F64.eq ((r.ExtendDevices.lookup rn).getD (.fin 0)) (.fin 0)

/-- One iteration of the loop of `Resource.Add`: an absent name is first stored as `0`, then
`rValue` is added to the stored value. -/
def addEntry (m : ExtendMap) (rName : ResourceName) (rValue : F64) : ExtendMap :=
  let m0 := if (m.lookup rName).isNone then m.insert rName (.fin 0) else m
  m0.insert rName (f64add ((m0.lookup rName).getD (.fin 0)) rValue)

/-- Mirrors `Resource.Add`. -/
def Resource.Add (r rr : Resource) : Resource :=
  { MilliCPU := f64add r.MilliCPU rr.MilliCPU
    Memory := f64add r.Memory rr.Memory
    MilliGPU := f64add r.MilliGPU rr.MilliGPU
    ExtendDevices := rr.ExtendDevices.foldl addEntry r.ExtendDevices }

/-- The loop of `Resource.Less` over the receiver's entries. -/
def lessExtend : List (Sigma fun _ : ResourceName => F64) → ExtendMap → Bool
  | [], _ => true
  | ⟨rName, rValue⟩ :: rest, other =>
    match other.lookup rName with
    | none => false
    | some v => if F64.ge rValue v then false else lessExtend rest other

/-- Mirrors `Resource.Less`. -/
def Resource.Less (r rr : Resource) : Bool :=
  lessExtend r.ExtendDevices.entries rr.ExtendDevices &&
    (F64.lt r.MilliCPU rr.MilliCPU && F64.lt r.Memory rr.Memory &&
      F64.lt r.MilliGPU rr.MilliGPU)

/-- The loop of `Resource.LessEqual` over the receiver's entries. -/
def lessEqualExtend : List (Sigma fun _ : ResourceName => F64) → ExtendMap → Bool
  | [], _ => true
  | ⟨rName, rValue⟩ :: rest, other =>
    match other.lookup rName with
    | none => false
    | some v => if F64.gt rValue v then false else lessEqualExtend rest other

/-- Mirrors `Resource.LessEqual`. -/
def Resource.LessEqual (r rr : Resource) : Bool :=
  lessEqualExtend r.ExtendDevices.entries rr.ExtendDevices &&
    ((F64.lt r.MilliCPU rr.MilliCPU ||
        F64.lt (F64.abs (f64sub rr.MilliCPU r.MilliCPU)) minMilliCPU) &&
      (F64.lt r.Memory rr.Memory ||
        F64.lt (F64.abs (f64sub rr.Memory r.Memory)) minMemory) &&
      (F64.lt r.MilliGPU rr.MilliGPU ||
        F64.lt (F64.abs (f64sub rr.MilliGPU r.MilliGPU)) minMilliGPU))

/-- One iteration of the loop of `Resource.Sub`: `r.ExtendDevices[rName] -= rValue`, an absent
name reading as `0`. -/
def subEntry (m : ExtendMap) (rName : ResourceName) (rValue : F64) : ExtendMap :=
  m.insert rName (f64sub ((m.lookup rName).getD (.fin 0)) rValue)

/-- Mirrors `Resource.Sub`; `none` is the panic. -/
def Resource.Sub (r rr : Resource) : Option Resource :=
  if rr.LessEqual r then
    some
      { MilliCPU := f64sub r.MilliCPU rr.MilliCPU
        Memory := f64sub r.Memory rr.Memory
        MilliGPU := f64sub r.MilliGPU rr.MilliGPU
        ExtendDevices := rr.ExtendDevices.foldl subEntry r.ExtendDevices }
  else none

/-- Mirrors `Resource.Get`; `none` is the panic. -/
def Resource.Get (r : Resource) (rn : ResourceName) : Option F64 :=
  if rn = ResourceCPU then some r.MilliCPU
  else if rn = ResourceMemory then some r.Memory
  else if rn = GPUResourceName then some r.MilliGPU
  else r.ExtendDevices.lookup rn

/-! ## `plugin_manager.go` -/

/-- Mirrors `map[string]string`, the type of annotation maps. -/
abbrev Annotations := AList (fun _ : String => String)

/-- Mirrors `type SchedulerPlugin struct`, restricted to the assessment hook and the five
lifecycle hooks.  A lifecycle hook returns nothing: `some ()` is a normal return and `none` a
panic raised inside the hook. -/
structure SchedulerPlugin where
  AssessTaskAndNode : String → ℤ → ℤ × Annotations
  OnAddNode : String → Annotations → Option Unit := fun _ _ => some ()
  OnUpdateNode : String → Annotations → Option Unit := fun _ _ => some ()
  OnDeleteNode : String → Option Unit := fun _ => some ()
  OnAddTask : String → Annotations → Option Unit := fun _ _ => some ()
  OnRemoveTask : String → Annotations → Option Unit := fun _ _ => some ()

/-- Mirrors the type of the package variable `schedulerPluginHolder`. -/
abbrev PluginHolder := AList (fun _ : ResourceName => SchedulerPlugin)

/-- A recorded invocation of a plugin's `AssessTaskAndNode` hook. -/
structure PluginCall where
  rName : ResourceName
  nodeName : String
  requireNum : ℤ
  deriving DecidableEq

/-- The local variables `nodeScore` and `nodeAnnotation` of `AssessTaskAndNode`, with the hook
invocations made so far. -/
structure AssessState where
  nodeScore : ℤ
  nodeAnnotations : Annotations
  calls : List PluginCall

/-- The inner loop `for k, v := range resourceAnnotation { nodeAnnotation[k] = v }`. -/
def mergeAnnotations (nodeAnnotations resourceAnnotations : Annotations) : Annotations :=
  resourceAnnotations.foldl (fun m k v => m.insert k v) nodeAnnotations

/-- One iteration of the loop of `AssessTaskAndNode`. -/
def assessStep (schedulerPluginHolder : PluginHolder) (nodeName : String)
    (st : AssessState) (entry : ResourceName × F64) : AssessState :=
  match schedulerPluginHolder.lookup entry.1 with
  | none => st
  | some scheplugin =>
    let requireNum := truncToInt entry.2
    let result := scheplugin.AssessTaskAndNode nodeName requireNum
    let calls := st.calls ++ [{ rName := entry.1, nodeName := nodeName, requireNum := requireNum }]
    if result.1 < 0 ∨ st.nodeScore < 0 then
      { nodeScore := -1, nodeAnnotations := st.nodeAnnotations, calls := calls }
    else
      { nodeScore := wrapInt (st.nodeScore + result.1)
        nodeAnnotations := mergeAnnotations st.nodeAnnotations result.2
        calls := calls }

/-- Mirrors `AssessTaskAndNode`; the Go function returns the pair `(nodeScore, nodeAnnotation)`,
here the fields `nodeScore` and `nodeAnnotations` of the final state. -/
def AssessTaskAndNode (schedulerPluginHolder : PluginHolder) (nodeName : String)
    (extendDevices : List (ResourceName × F64)) : AssessState :=
  extendDevices.foldl (assessStep schedulerPluginHolder nodeName)
    { nodeScore := 0, nodeAnnotations := ∅, calls := [] }

/-- Mirrors the fields of `v1.Node` the package reads. -/
structure Node where
  Name : String
  Annotations : Annotations

/-- Mirrors the field of `v1.Pod` the package reads. -/
structure Pod where
  Annotations : Annotations

/-- What a lifecycle broadcast did: the registry keys of the plugins whose hook was invoked, in
order, and whether the call ended in a panic. -/
structure Broadcast where
  invoked : List ResourceName
  panicked : Bool
  deriving DecidableEq

/-- The loop `for _, scheplugin := range schedulerPluginHolder` with one hook invocation as its
body.  Nothing in the package recovers a panic, so a panic inside a hook ends the loop and the
call. -/
def rangePlugins (hook : SchedulerPlugin → Option Unit) :
    List (Sigma fun _ : ResourceName => SchedulerPlugin) → Broadcast
  | [] => { invoked := [], panicked := false }
  | ⟨rName, scheplugin⟩ :: rest =>
    match hook scheplugin with
    | none => { invoked := [rName], panicked := true }
    | some () =>
      { invoked := rName :: (rangePlugins hook rest).invoked
        panicked := (rangePlugins hook rest).panicked }

/-- Mirrors `OnAddNode`. -/
def OnAddNode (schedulerPluginHolder : PluginHolder) (node : Node) : Broadcast :=
  rangePlugins (fun scheplugin => scheplugin.OnAddNode node.Name node.Annotations)
    schedulerPluginHolder.entries

/-- Mirrors `OnUpdateNode`. -/
def OnUpdateNode (schedulerPluginHolder : PluginHolder) (node : Node) : Broadcast :=
  rangePlugins (fun scheplugin => scheplugin.OnUpdateNode node.Name node.Annotations)
    schedulerPluginHolder.entries

/-- Mirrors `OnDeleteNode`. -/
def OnDeleteNode (schedulerPluginHolder : PluginHolder) (node : Node) : Broadcast :=
  rangePlugins (fun scheplugin => scheplugin.OnDeleteNode node.Name)
    schedulerPluginHolder.entries

/-- Mirrors `OnAddTask`. -/
def OnAddTask (schedulerPluginHolder : PluginHolder) (node : Node) (pod : Pod) : Broadcast :=
  rangePlugins (fun scheplugin => scheplugin.OnAddTask node.Name pod.Annotations)
    schedulerPluginHolder.entries

/-- Mirrors `OnRemoveTask`. -/
def OnRemoveTask (schedulerPluginHolder : PluginHolder) (node : Node) (pod : Pod) : Broadcast :=
  rangePlugins (fun scheplugin => scheplugin.OnRemoveTask node.Name pod.Annotations)
    schedulerPluginHolder.entries

/-- The five lifecycle notifications with their arguments. -/
inductive LifecycleEvent where
  | addNode (node : Node)
  | updateNode (node : Node)
  | deleteNode (node : Node)
  | addTask (node : Node) (pod : Pod)
  | removeTask (node : Node) (pod : Pod)

/-- The hook invocation a notification makes on one plugin. -/
def LifecycleEvent.hook : LifecycleEvent → SchedulerPlugin → Option Unit
  | .addNode node, scheplugin => scheplugin.OnAddNode node.Name node.Annotations
  | .updateNode node, scheplugin => scheplugin.OnUpdateNode node.Name node.Annotations
  | .deleteNode node, scheplugin => scheplugin.OnDeleteNode node.Name
  | .addTask node pod, scheplugin => scheplugin.OnAddTask node.Name pod.Annotations
  | .removeTask node pod, scheplugin => scheplugin.OnRemoveTask node.Name pod.Annotations

/-- The package function that delivers a notification. -/
def broadcast (schedulerPluginHolder : PluginHolder) : LifecycleEvent → Broadcast
  | .addNode node => OnAddNode schedulerPluginHolder node
  | .updateNode node => OnUpdateNode schedulerPluginHolder node
  | .deleteNode node => OnDeleteNode schedulerPluginHolder node
  | .addTask node pod => OnAddTask schedulerPluginHolder node pod
  | .removeTask node pod => OnRemoveTask schedulerPluginHolder node pod

/-! ## Fixtures of the scenarios -/

/-- Annotations returned by the GPU plugin of Scenarios 2 and 3. -/
def gpuAnnotations : Annotations := AList.singleton "gpu-type" "A100"

/-- GPU plugin of Scenarios 2 and 3: score `5` for two requested units. -/
def gpuPlugin : SchedulerPlugin :=
  { AssessTaskAndNode := fun _ requireNum =>
      if requireNum = 2 then (5, gpuAnnotations) else (0, ∅) }

/-- Plugin of Scenario 3 that reports the node infeasible. -/
def xPlugin : SchedulerPlugin :=
  { AssessTaskAndNode := fun _ _ => (-1, AList.singleton "x-state" "exhausted") }

/-- Registry holding only the GPU plugin. -/
def gpuHolder : PluginHolder := AList.singleton "gpu" gpuPlugin

/-- Registry holding the GPU plugin and the infeasible plugin. -/
def gpuXHolder : PluginHolder := (AList.singleton "gpu" gpuPlugin).insert "x" xPlugin

/-- Plugin returning the score `2 ^ 62`; two such scores add up to `2 ^ 63`, one more than the
largest Go `int`. -/
def hugePlugin : SchedulerPlugin :=
  { AssessTaskAndNode := fun _ _ => (2 ^ 62, ∅) }

/-- Registry with two plugins of score `2 ^ 62`. -/
def hugeHolder : PluginHolder := (AList.singleton "a" hugePlugin).insert "b" hugePlugin

/-- Plugin returning a feasible score and the annotation `slot ↦ first`. -/
def firstPlugin : SchedulerPlugin :=
  { AssessTaskAndNode := fun _ _ => (1, AList.singleton "slot" "first") }

/-- Plugin returning a feasible score and the annotation `slot ↦ second`. -/
def secondPlugin : SchedulerPlugin :=
  { AssessTaskAndNode := fun _ _ => (2, AList.singleton "slot" "second") }

/-- Registry with two plugins whose annotations collide on the key `slot`. -/
def slotHolder : PluginHolder := (AList.singleton "p" firstPlugin).insert "q" secondPlugin

/-! ## Reference quantities of the claims -/

/-- The sum, over the demand entries whose name is registered, of the score the entry's plugin
returns for the node and the converted quantity. -/
def scoreSum (H : PluginHolder) (node : String) (l : List (ResourceName × F64)) : ℤ :=
  (l.filterMap fun e =>
    (H.lookup e.1).map fun p => (p.AssessTaskAndNode node (truncToInt e.2)).1).sum

/-- The hook invocations of a call: one per demand entry with a plugin, in visiting order, with
the converted quantity. -/
def expectedCalls (H : PluginHolder) (node : String) (l : List (ResourceName × F64)) :
    List PluginCall :=
  l.filterMap fun e =>
    if (H.lookup e.1).isSome then
      some { rName := e.1, nodeName := node, requireNum := truncToInt e.2 }
    else none

/-- What the hook receives as `requireNum` for the demand quantity `v`: for a finite quantity
of magnitude below `2 ^ 63` the integer `k` is the quantity truncated toward zero (no larger
in magnitude, less than one away) and is non-negative exactly when the quantity is greater
than `-1`; for a quantity of magnitude `2 ^ 63` or more, an infinity or NaN it is the smallest
`int`. -/
def requireNumSpec (v : F64) (k : ℤ) : Prop :=
  match v with
  | .fin q =>
    (|q| < 2 ^ 63 → |(k : ℚ)| ≤ |q| ∧ |q - k| < 1 ∧ (0 ≤ k ↔ -1 < q)) ∧
      (2 ^ 63 ≤ |q| → k = -2 ^ 63)
  | _ => k = -2 ^ 63

/-- The tolerant test on one scalar in exact arithmetic: the receiver's scalar `x` is smaller
than the other scalar `y`, or both are finite and the absolute value of the exact difference
`y - x` is below `bound`. -/
def scalarWithin (x y : F64) (bound : ℚ) : Prop :=
  x < y ∨ ∃ p q, x = .fin p ∧ y = .fin q ∧ |q - p| < bound

/-- The comparison `lessOrEqual` in the words of the specification, with the tolerances as
parameters: every extended name of the receiver is a key of the other map, a missing name
failing the comparison, with a value that is not greater (no tolerance); and each of CPU,
memory and GPU is smaller than the other scalar or the absolute value of the difference
`other - receiver` is below the tolerance of that dimension. -/
def LessEqualSpec (epsCPU epsMemory epsGPU : ℚ) (r rr : Resource) : Prop :=
  (∀ n v, r.ExtendDevices.lookup n = some v →
      ∃ w, rr.ExtendDevices.lookup n = some w ∧ ¬ v > w) ∧
    scalarWithin r.MilliCPU rr.MilliCPU epsCPU ∧
    scalarWithin r.Memory rr.Memory epsMemory ∧
    scalarWithin r.MilliGPU rr.MilliGPU epsGPU

/-- Scenario 1, minuend: 2000 millicores and 4 GiB. -/
def scenario1Total : Resource :=
  { MilliCPU := .fin 2000, Memory := .fin (4 * 1024 ^ 3), MilliGPU := .fin 0
    ExtendDevices := ∅ }

/-- Scenario 1, subtrahend: 500 millicores and 1 GiB. -/
def scenario1Request : Resource :=
  { MilliCPU := .fin 500, Memory := .fin (1 * 1024 ^ 3), MilliGPU := .fin 0
    ExtendDevices := ∅ }

/-- A resource with only the given number of millicores. -/
def cpuOnly (milliCPU : F64) : Resource :=
  { MilliCPU := milliCPU, Memory := .fin 0, MilliGPU := .fin 0, ExtendDevices := ∅ }

/-- A node with two GPUs and four FPGAs besides CPU and memory. -/
def fpgaNode : Resource :=
  { MilliCPU := .fin 4000, Memory := .fin (8 * 1024 ^ 3), MilliGPU := .fin 2000
    ExtendDevices :=
      (AList.singleton "nvidia.com/gpu" (.fin 2)).insert "example.com/fpga" (.fin 4) }

/-- A task asking for one GPU. -/
def gpuTask : Resource :=
  { MilliCPU := .fin 1000, Memory := .fin (2 * 1024 ^ 3), MilliGPU := .fin 1000
    ExtendDevices := AList.singleton "nvidia.com/gpu" (.fin 1) }

/-- A resource with only the given extended entry. -/
def extendOnly (rName : ResourceName) (rValue : F64) : Resource :=
  { MilliCPU := .fin 0, Memory := .fin 0, MilliGPU := .fin 0
    ExtendDevices := AList.singleton rName rValue }

/-- A resource with the three scalars at `level` and one FPGA entry. -/
def levelWithFpga (level : ℚ) (fpga : F64) : Resource :=
  { MilliCPU := .fin level, Memory := .fin level, MilliGPU := .fin level
    ExtendDevices := AList.singleton "example.com/fpga" fpga }

/-- Plugin whose lifecycle hooks all panic. -/
def panicPlugin : SchedulerPlugin :=
  { AssessTaskAndNode := fun _ _ => (0, ∅)
    OnAddNode := fun _ _ => none
    OnUpdateNode := fun _ _ => none
    OnDeleteNode := fun _ => none
    OnAddTask := fun _ _ => none
    OnRemoveTask := fun _ _ => none }

/-- Registry in which `range` yields the panicking plugin before the GPU plugin. -/
def panicFirstHolder : PluginHolder := (AList.singleton "gpu" gpuPlugin).insert "bad" panicPlugin

/-- A node without annotations. -/
def plainNode : Node := { Name := "node", Annotations := ∅ }

/-- A pod without annotations. -/
def plainPod : Pod := { Annotations := ∅ }

/-! ## Maps -/

section Maps

variable {K V : Type} [DecidableEq K]

/-- Storing, for every entry of `es` in turn, a value computed from the value stored so far:
the final value at `k` depends only on the initial map and on the entry of `es` at `k`. -/
theorem lookup_foldl_update (F : Option V → V → V) :
    ∀ (es : List (Sigma fun _ : K => V)), es.NodupKeys → ∀ (acc : AList fun _ : K => V) (k : K),
      AList.lookup k (es.foldl (fun m e => m.insert e.1 (F (m.lookup e.1) e.2)) acc) =
        (es.dlookup k).elim (acc.lookup k) (fun v => some (F (acc.lookup k) v))
  | [], _, acc, k => by simp
  | ⟨n, v⟩ :: rest, hnd, acc, k => by
    rw [List.nodupKeys_cons] at hnd
    rw [List.foldl_cons, lookup_foldl_update F rest hnd.2]
    by_cases hk : k = n
    · subst hk
      have hnone : List.dlookup k rest = none := List.dlookup_eq_none.mpr hnd.1
      simp [hnone, AList.lookup_insert]
    · have hne : k ≠ (⟨n, v⟩ : Sigma fun _ : K => V).1 := hk
      rw [List.dlookup_cons_ne rest _ hne]
      simp [AList.lookup_insert_ne hk]

end Maps

/-! ## Rounding to `float64`: auxiliary facts -/

theorem roundHalfEven_intCast (n : ℤ) : roundHalfEven (n : ℚ) = n := by
  simp [roundHalfEven]

theorem roundHalfEven_nonneg (k : ℚ) (hk : 0 ≤ k) : 0 ≤ roundHalfEven k := by
  have hf : 0 ≤ ⌊k⌋ := Int.floor_nonneg.mpr hk
  unfold roundHalfEven
  simp only
  split_ifs <;> omega

theorem two_zpow_pos (z : ℤ) : (0 : ℚ) < 2 ^ z := zpow_pos (by norm_num) z

/-- A value that is an integer number of units in its last place is not changed by
rounding. -/
theorem roundF64_of_int_units (q : ℚ) (m : ℤ) (h : q / 2 ^ ulpExp q = m) : roundF64 q = q := by
  unfold roundF64
  rw [h, roundHalfEven_intCast, ← h]
  exact div_mul_cancel₀ q (two_zpow_pos _).ne'

theorem roundF64_zero : roundF64 0 = 0 :=
  roundF64_of_int_units 0 0 (by simp)

theorem roundF64_nonneg (q : ℚ) (hq : 0 ≤ q) : 0 ≤ roundF64 q := by
  unfold roundF64
  have h₁ : 0 ≤ q / 2 ^ ulpExp q := div_nonneg hq (two_zpow_pos _).le
  have h₂ : (0 : ℚ) ≤ roundHalfEven (q / 2 ^ ulpExp q) := by
    exact_mod_cast roundHalfEven_nonneg _ h₁
  exact mul_nonneg h₂ (two_zpow_pos _).le

theorem int_log_two_eq (x : ℚ) (e : ℤ) (hlo : (2 : ℚ) ^ e ≤ x) (hhi : x < 2 ^ (e + 1)) :
    Int.log 2 x = e := by
  have hx : 0 < x := lt_of_lt_of_le (two_zpow_pos e) hlo
  apply le_antisymm
  · have := (Int.lt_zpow_iff_log_lt (b := 2) (by norm_num) hx (x := e + 1)).mp
      (by exact_mod_cast hhi)
    omega
  · exact (Int.zpow_le_iff_le_log (b := 2) (by norm_num) hx).mp (by exact_mod_cast hlo)

theorem ulpExp_le (q : ℚ) (k : ℤ) (hq : q ≠ 0) (hlt : |q| < 2 ^ (k + 53)) (hk : -1074 ≤ k) :
    ulpExp q ≤ k := by
  have hpos : 0 < |q| := abs_pos.mpr hq
  have := (Int.lt_zpow_iff_log_lt (b := 2) (by norm_num) hpos (x := k + 53)).mp
    (by exact_mod_cast hlt)
  unfold ulpExp
  omega

/-- A number `m * 2 ^ k` with a significand `m` of at most 53 bits and an exponent `k` in the
range of `float64` is a double: rounding does not change it. -/
theorem roundF64_mul_zpow (m k : ℤ) (hm : |m| < 2 ^ 53) (hk : -1074 ≤ k) :
    roundF64 (m * 2 ^ k) = m * 2 ^ k := by
  by_cases hm0 : m = 0
  · subst hm0; simpa using roundF64_zero
  have hq : (m : ℚ) * 2 ^ k ≠ 0 :=
    mul_ne_zero (by exact_mod_cast hm0) (two_zpow_pos k).ne'
  have hlt : |(m : ℚ) * 2 ^ k| < 2 ^ (k + 53) := by
    rw [abs_mul, abs_of_pos (two_zpow_pos k), add_comm, zpow_add₀ (by norm_num : (2 : ℚ) ≠ 0)]
    have hm' : |(m : ℚ)| < 2 ^ (53 : ℤ) := by
      have h : ((|m| : ℤ) : ℚ) < ((2 ^ 53 : ℤ) : ℚ) := Int.cast_lt.mpr hm
      rw [Int.cast_abs] at h
      norm_num at h ⊢
      exact h
    exact mul_lt_mul_of_pos_right hm' (two_zpow_pos k)
  have hu := ulpExp_le _ k hq hlt hk
  obtain ⟨d, hd⟩ : ∃ d : ℕ, k = ulpExp ((m : ℚ) * 2 ^ k) + d :=
    ⟨(k - ulpExp ((m : ℚ) * 2 ^ k)).toNat, by omega⟩
  apply roundF64_of_int_units _ (m * 2 ^ d)
  rw [mul_div_assoc, ← zpow_sub₀ (by norm_num : (2 : ℚ) ≠ 0)]
  have : k - ulpExp ((m : ℚ) * 2 ^ k) = d := by omega
  rw [this]
  push_cast
  rw [zpow_natCast]

theorem roundF64_intCast (n : ℤ) (hn : |n| < 2 ^ 53) : roundF64 n = n := by
  simpa using roundF64_mul_zpow n 0 hn (by norm_num)

theorem roundHalfEven_error (k : ℚ) : |(roundHalfEven k : ℚ) - k| ≤ 1 / 2 := by
  have h₁ : ((⌊k⌋ : ℤ) : ℚ) ≤ k := Int.floor_le k
  have h₂ : k < ⌊k⌋ + 1 := Int.lt_floor_add_one k
  unfold roundHalfEven
  simp only
  rw [abs_le]
  split_ifs with ha hb hc
  · constructor <;> linarith
  · push_cast; constructor <;> linarith
  · have : k - ⌊k⌋ = 1 / 2 := le_antisymm (not_lt.mp hb) (not_lt.mp ha)
    constructor <;> linarith
  · have : k - ⌊k⌋ = 1 / 2 := le_antisymm (not_lt.mp hb) (not_lt.mp ha)
    push_cast; constructor <;> linarith

theorem floor_le_roundHalfEven (k : ℚ) : ⌊k⌋ ≤ roundHalfEven k := by
  unfold roundHalfEven
  simp only
  split_ifs <;> omega

/-- Rounding moves a value by at most half a unit in the last place. -/
theorem roundF64_error (q : ℚ) : |roundF64 q - q| ≤ 2 ^ ulpExp q / 2 := by
  have hu := two_zpow_pos (ulpExp q)
  have hk := roundHalfEven_error (q / 2 ^ ulpExp q)
  have heq : roundF64 q - q =
      ((roundHalfEven (q / 2 ^ ulpExp q) : ℚ) - q / 2 ^ ulpExp q) * 2 ^ ulpExp q := by
    unfold roundF64
    rw [sub_mul, div_mul_cancel₀ q hu.ne']
  rw [heq, abs_mul, abs_of_pos hu]
  calc |(roundHalfEven (q / 2 ^ ulpExp q) : ℚ) - q / 2 ^ ulpExp q| * 2 ^ ulpExp q
      ≤ 1 / 2 * 2 ^ ulpExp q := mul_le_mul_of_nonneg_right hk hu.le
    _ = 2 ^ ulpExp q / 2 := by ring

/-- Below `2 ^ 55` in magnitude the rounding error is at most `2`. -/
theorem roundF64_error_small (q : ℚ) (h : |q| < 2 ^ 55) : |roundF64 q - q| ≤ 2 := by
  by_cases hq : q = 0
  · subst hq; simp [roundF64_zero]
  have hu : ulpExp q ≤ 2 := ulpExp_le q 2 hq (by norm_num; exact h) (by norm_num)
  have h₁ := roundF64_error q
  have h₂ : (2 : ℚ) ^ ulpExp q ≤ 2 ^ (2 : ℤ) := zpow_le_zpow_right₀ (by norm_num) hu
  norm_num at h₂
  linarith

/-- The units in the last place of a double divide it. -/
theorem int_units_of_isF64 (y : ℚ) (hy : roundF64 y = y) :
    y / 2 ^ ulpExp y = roundHalfEven (y / 2 ^ ulpExp y) := by
  have hu := two_zpow_pos (ulpExp y)
  unfold roundF64 at hy
  rw [div_eq_iff hu.ne']
  exact hy.symm

theorem ulpExp_mono (x y : ℚ) (hx : 0 < |x|) (hxy : |x| ≤ |y|) : ulpExp x ≤ ulpExp y := by
  have := Int.log_mono_right (b := 2) hx hxy
  unfold ulpExp
  omega

/-- A multiple of a finer unit that is at least as large in magnitude as a multiple of a
coarser power of two: doubles of a higher binade are multiples of the lower unit. -/
theorem exists_int_units (y : ℚ) (hy : roundF64 y = y) (u : ℤ) (hu : u ≤ ulpExp y) :
    ∃ m : ℤ, y = m * 2 ^ u := by
  obtain ⟨d, hd⟩ : ∃ d : ℕ, ulpExp y = u + d := ⟨(ulpExp y - u).toNat, by omega⟩
  refine ⟨roundHalfEven (y / 2 ^ ulpExp y) * 2 ^ d, ?_⟩
  have h := int_units_of_isF64 y hy
  have hpos := two_zpow_pos (ulpExp y)
  have hy' : y = roundHalfEven (y / 2 ^ ulpExp y) * 2 ^ ulpExp y := by
    rw [← h, div_mul_cancel₀ y hpos.ne']
  conv_lhs => rw [hy']
  rw [hd, zpow_add₀ (by norm_num : (2 : ℚ) ≠ 0), zpow_natCast]
  push_cast
  ring

/-- Rounding never crosses a double from above: a double `y` that is at most `x` is at most
the rounded `x`. -/
theorem le_roundF64 (x y : ℚ) (hy : roundF64 y = y) (hyx : y ≤ x) : y ≤ roundF64 x := by
  have hux := two_zpow_pos (ulpExp x)
  -- it suffices to place a multiple of the unit of `x` between `y` and `x`
  suffices h : ∃ g : ℤ, y ≤ g * 2 ^ ulpExp x ∧ (g : ℚ) * 2 ^ ulpExp x ≤ x by
    obtain ⟨g, hyg, hgx⟩ := h
    have hg : (g : ℚ) ≤ x / 2 ^ ulpExp x := (le_div_iff₀ hux).mpr hgx
    have hfl : g ≤ ⌊x / 2 ^ ulpExp x⌋ := Int.le_floor.mpr hg
    have hr : g ≤ roundHalfEven (x / 2 ^ ulpExp x) := le_trans hfl (floor_le_roundHalfEven _)
    have hr' : (g : ℚ) ≤ roundHalfEven (x / 2 ^ ulpExp x) := by exact_mod_cast hr
    calc y ≤ g * 2 ^ ulpExp x := hyg
      _ ≤ roundHalfEven (x / 2 ^ ulpExp x) * 2 ^ ulpExp x :=
        mul_le_mul_of_nonneg_right hr' hux.le
  rcases le_or_lt y 0 with hy0 | hy0
  · rcases le_or_lt 0 x with hx0 | hx0
    · exact ⟨0, by simpa using hy0, by simpa using hx0⟩
    · -- `y ≤ x < 0`: `y` is in a binade at least as high as that of `x`
      have habs : |x| ≤ |y| := by
        rw [abs_of_neg hx0, abs_of_nonpos hy0]; linarith
      have hmono := ulpExp_mono x y (abs_pos.mpr hx0.ne) habs
      obtain ⟨m, hm⟩ := exists_int_units y hy (ulpExp x) hmono
      exact ⟨m, hm.le, by rw [← hm]; exact hyx⟩
  · -- `0 < y ≤ x`
    have hx0 : 0 < x := lt_of_lt_of_le hy0 hyx
    have habs : |y| ≤ |x| := by
      rw [abs_of_pos hx0, abs_of_pos hy0]; exact hyx
    have hmono := ulpExp_mono y x (abs_pos.mpr hy0.ne') habs
    rcases eq_or_lt_of_le hmono with heq | hlt
    · obtain ⟨m, hm⟩ := exists_int_units y hy (ulpExp x) heq.ge
      exact ⟨m, hm.le, by rw [← hm]; exact hyx⟩
    · -- `y` lies below the binade of `x`, whose lower end is a multiple of the unit of `x`
      have hlogx : -1022 < Int.log 2 |x| := by unfold ulpExp at hlt; omega
      have hlogy : Int.log 2 |y| < Int.log 2 |x| := by unfold ulpExp at hlt; omega
      have hux_eq : ulpExp x = Int.log 2 |x| - 52 := by unfold ulpExp; omega
      have hlow : (2 : ℚ) ^ Int.log 2 |x| ≤ x := by
        have := Int.zpow_log_le_self (b := 2) (by norm_num) (abs_pos.mpr hx0.ne')
        rw [abs_of_pos hx0] at this
        rw [abs_of_pos hx0]
        exact_mod_cast this
      have hupp : y < (2 : ℚ) ^ (Int.log 2 |y| + 1) := by
        have := Int.lt_zpow_succ_log_self (b := 2) (by norm_num) |y|
        rw [abs_of_pos hy0] at this ⊢
        exact_mod_cast this
      have hstep : (2 : ℚ) ^ (Int.log 2 |y| + 1) ≤ 2 ^ Int.log 2 |x| :=
        zpow_le_zpow_right₀ (by norm_num) (by omega)
      have hbin : ((2 ^ 52 : ℤ) : ℚ) * 2 ^ ulpExp x = 2 ^ Int.log 2 |x| := by
        have h52 : ((2 ^ 52 : ℤ) : ℚ) = (2 : ℚ) ^ (52 : ℤ) := by norm_num
        rw [h52, hux_eq, ← zpow_add₀ (by norm_num : (2 : ℚ) ≠ 0)]
        congr 1
        ring
      refine ⟨2 ^ 52, ?_, ?_⟩
      · rw [hbin]
        linarith
      · rw [hbin]
        exact hlow

theorem roundHalfEven_neg (k : ℚ) : roundHalfEven (-k) = -roundHalfEven k := by
  by_cases hint : ((⌊k⌋ : ℤ) : ℚ) = k
  · have h₁ : roundHalfEven k = ⌊k⌋ := by
      conv_lhs => rw [← hint]
      exact roundHalfEven_intCast _
    have h₂ : roundHalfEven (-k) = -⌊k⌋ := by
      have : -k = ((-⌊k⌋ : ℤ) : ℚ) := by push_cast; rw [hint]
      rw [this]
      exact roundHalfEven_intCast _
    rw [h₁, h₂]
  · have hlo : ((⌊k⌋ : ℤ) : ℚ) < k := lt_of_le_of_ne (Int.floor_le k) hint
    have hhi : k < ⌊k⌋ + 1 := Int.lt_floor_add_one k
    have hfl : ⌊-k⌋ = -⌊k⌋ - 1 := by
      rw [Int.floor_eq_iff]
      push_cast
      constructor <;> linarith
    unfold roundHalfEven
    simp only [hfl]
    push_cast
    split_ifs <;> first | omega | (exfalso; linarith)

theorem ulpExp_neg (q : ℚ) : ulpExp (-q) = ulpExp q := by
  unfold ulpExp
  rw [abs_neg]

/-- Rounding is symmetric about zero. -/
theorem roundF64_neg (q : ℚ) : roundF64 (-q) = -roundF64 q := by
  unfold roundF64
  rw [ulpExp_neg, neg_div, roundHalfEven_neg]
  push_cast
  ring

/-- Rounding never crosses a double from below: a double `y` that is at least `x` is at least
the rounded `x`. -/
theorem roundF64_le (x y : ℚ) (hy : roundF64 y = y) (hxy : x ≤ y) : roundF64 x ≤ y := by
  have hy' : roundF64 (-y) = -y := by rw [roundF64_neg, hy]
  have h := le_roundF64 (-x) (-y) hy' (by linarith)
  rw [roundF64_neg] at h
  linarith

/-- A `float64` difference that is below `eps` in absolute value comes from an exact
difference below `eps` in absolute value, when `eps` is a double. -/
theorem abs_lt_of_abs_round_lt (x eps : ℚ) (heps : roundF64 eps = eps)
    (h : |roundF64 x| < eps) : |x| < eps := by
  rw [abs_lt] at h ⊢
  constructor
  · by_contra hc
    have hneg : roundF64 (-eps) = -eps := by rw [roundF64_neg, heps]
    have := roundF64_le x (-eps) hneg (not_lt.mp hc)
    linarith
  · by_contra hc
    have := le_roundF64 x eps heps (not_lt.mp hc)
    linarith

/-! ## `float64` values: auxiliary facts -/

theorem f64_lt_def (x y : F64) : x < y ↔ F64.lt x y = true := Iff.rfl

theorem f64_le_def (x y : F64) : x ≤ y ↔ F64.ge y x = true := Iff.rfl

theorem f64_fin_lt_fin (p q : ℚ) : F64.fin p < F64.fin q ↔ p < q := by
  simp [f64_lt_def, F64.lt]

theorem f64_lt_irrefl (x : F64) : F64.lt x x = false := by
  cases x <;> simp [F64.lt]

theorem f64_lt_asymm (x y : F64) (h : F64.lt x y = true) : F64.lt y x = false := by
  cases x <;> cases y <;> simp_all [F64.lt]
  exact le_of_lt h

theorem f64_lt_trans (x y z : F64) (h₁ : F64.lt x y = true) (h₂ : F64.lt y z = true) :
    F64.lt x z = true := by
  cases x <;> cases y <;> cases z <;> simp_all [F64.lt]
  exact lt_trans h₁ h₂

/-- `x >= y` false and `x > y` false are the same unless exactly `x == y`. -/
theorem f64_gt_false_of_ge_false (x y : F64) (h : F64.ge x y = false) : F64.gt x y = false := by
  simp only [F64.ge, Bool.or_eq_false_iff] at h
  exact h.1

theorem roundF64_nonpos (q : ℚ) (hq : q ≤ 0) : roundF64 q ≤ 0 := by
  have h := roundF64_nonneg (-q) (by linarith)
  rw [roundF64_neg] at h
  linarith

/-- The three ways an exact result is delivered. -/
theorem ofRat_cases (q : ℚ) :
    (F64.ofRat q = .fin (roundF64 q) ∧ |roundF64 q| < 2 ^ 1024) ∨
      (F64.ofRat q = .pinf ∧ 0 ≤ q ∧ 2 ^ 1024 ≤ roundF64 q) ∨
      (F64.ofRat q = .ninf ∧ q < 0 ∧ roundF64 q ≤ -2 ^ 1024) := by
  unfold F64.ofRat
  by_cases h : |roundF64 q| < 2 ^ 1024
  · left
    exact ⟨by rw [if_pos h], h⟩
  · right
    rw [if_neg h]
    have h' := not_lt.mp h
    by_cases hq : q < 0
    · right
      rw [if_pos hq]
      refine ⟨rfl, hq, ?_⟩
      have := roundF64_nonpos q hq.le
      rw [abs_of_nonpos this] at h'
      linarith
    · left
      rw [if_neg hq]
      refine ⟨rfl, not_lt.mp hq, ?_⟩
      have := roundF64_nonneg q (not_lt.mp hq)
      rw [abs_of_nonneg this] at h'
      exact h'

theorem ofRat_ne_nan (q : ℚ) : F64.ofRat q ≠ .nan := by
  rcases ofRat_cases q with h | h | h <;> rw [h.1] <;> simp

/-- A double is delivered unchanged. -/
theorem ofRat_of_double (q : ℚ) (h₁ : roundF64 q = q) (h₂ : |q| < 2 ^ 1024) :
    F64.ofRat q = .fin q := by
  unfold F64.ofRat
  rw [h₁, if_pos h₂]

theorem ofRat_zero : F64.ofRat 0 = .fin 0 :=
  ofRat_of_double 0 roundF64_zero (by norm_num)

theorem ofRat_intCast (n : ℤ) (hn : |n| < 2 ^ 53) : F64.ofRat n = .fin n := by
  apply ofRat_of_double _ (roundF64_intCast n hn)
  have h : ((|n| : ℤ) : ℚ) < ((2 ^ 53 : ℤ) : ℚ) := Int.cast_lt.mpr hn
  rw [Int.cast_abs] at h
  have h53 : ((2 ^ 53 : ℤ) : ℚ) < 2 ^ 1024 := by norm_num
  linarith

/-- What `isFinite` decides. -/
theorem isFinite_iff (x : F64) :
    x.isFinite = true ↔ ∃ q, x = .fin q ∧ roundF64 q = q ∧ |q| < 2 ^ 1024 := by
  cases x with
  | fin q =>
    simp only [F64.isFinite, decide_eq_true_eq, F64.fin.injEq, exists_eq_left']
    constructor
    · intro h
      rcases ofRat_cases q with hc | hc | hc
      · rw [hc.1] at h
        have hq : roundF64 q = q := F64.fin.inj h
        rw [hq] at hc
        exact ⟨hq, hc.2⟩
      · rw [hc.1] at h; exact absurd h (by simp)
      · rw [hc.1] at h; exact absurd h (by simp)
    · rintro ⟨h₁, h₂⟩
      exact ofRat_of_double q h₁ h₂
  | pinf => simp [F64.isFinite]
  | ninf => simp [F64.isFinite]
  | nan => simp [F64.isFinite]

/-- A non-negative exact result is delivered as a non-negative value or as `+Inf`. -/
theorem ofRat_nonneg (q : ℚ) (hq : 0 ≤ q) :
    F64.ofRat q = .pinf ∨ ∃ t, F64.ofRat q = .fin t ∧ 0 ≤ t := by
  rcases ofRat_cases q with h | h | h
  · exact Or.inr ⟨_, h.1, roundF64_nonneg q hq⟩
  · exact Or.inl h.1
  · exact absurd h.2.1 (not_lt.mpr hq)

/-- An exact result that is at least the double `y` is delivered as a value that is at least
`y`, or as `+Inf`. -/
theorem le_ofRat (x y : ℚ) (hy₁ : roundF64 y = y) (hy₂ : |y| < 2 ^ 1024) (hyx : y ≤ x) :
    F64.ofRat x = .pinf ∨ ∃ t, F64.ofRat x = .fin t ∧ y ≤ t := by
  have hle := le_roundF64 x y hy₁ hyx
  rcases ofRat_cases x with h | h | h
  · exact Or.inr ⟨_, h.1, hle⟩
  · exact Or.inl h.1
  · exfalso
    have := (abs_lt.mp hy₂).1
    linarith [h.2.2]

/-! ## The tolerance test in exact arithmetic -/

/-- Rounding to an integer stays below an even integer `N` exactly for the values below
`N - 1/2`: the value halfway is a tie and goes to the even `N`. -/
theorem roundHalfEven_lt_iff (k : ℚ) (N : ℤ) (hN : N % 2 = 0) :
    roundHalfEven k < N ↔ k < N - 1 / 2 := by
  have h₁ : ((⌊k⌋ : ℤ) : ℚ) ≤ k := Int.floor_le k
  have h₂ : k < ⌊k⌋ + 1 := Int.lt_floor_add_one k
  have cast_le : ∀ a b : ℤ, a ≤ b → (a : ℚ) ≤ b := fun a b h => by exact_mod_cast h
  have key : ∀ a b : ℤ, (a : ℚ) < b → a + 1 ≤ b := fun a b h => by
    have : a < b := by exact_mod_cast h
    omega
  unfold roundHalfEven
  simp only
  split_ifs with ha hb hc
  · constructor
    · intro h
      have := cast_le (⌊k⌋ + 1) N (by omega)
      push_cast at this
      linarith
    · intro h
      have := key ⌊k⌋ N (by linarith)
      omega
  · constructor
    · intro h
      have := cast_le (⌊k⌋ + 2) N (by omega)
      push_cast at this
      linarith
    · intro h
      have hfl : ⌊k⌋ + 1 ≤ N := key ⌊k⌋ N (by linarith)
      rcases eq_or_lt_of_le hfl with heq | hlt
      · exfalso
        have : ((⌊k⌋ + 1 : ℤ) : ℚ) = N := by rw [heq]
        push_cast at this
        linarith
      · exact hlt
  · have hfrac : k - ⌊k⌋ = 1 / 2 := le_antisymm (not_lt.mp hb) (not_lt.mp ha)
    constructor
    · intro h
      have := cast_le (⌊k⌋ + 2) N (by omega)
      push_cast at this
      linarith
    · intro h
      have := key ⌊k⌋ N (by linarith)
      omega
  · have hfrac : k - ⌊k⌋ = 1 / 2 := le_antisymm (not_lt.mp hb) (not_lt.mp ha)
    constructor
    · intro h
      have := cast_le (⌊k⌋ + 2) N (by omega)
      push_cast at this
      linarith
    · intro h
      have hfl : ⌊k⌋ + 1 ≤ N := key ⌊k⌋ N (by linarith)
      rcases eq_or_lt_of_le hfl with heq | hlt
      · exfalso
        have : ((⌊k⌋ + 1 : ℤ) : ℚ) = N := by rw [heq]
        push_cast at this
        linarith
      · exact hlt

/-- For a non-negative exact value, the rounded value is below `5 * 2 ^ e` exactly when the
value is below `5 * 2 ^ e` less half a unit in the last place, `2 ^ (e - 51)`. -/
theorem roundF64_lt_five_iff_of_nonneg (e : ℤ) (he : -1000 ≤ e) (d : ℚ) (hd : 0 ≤ d) :
    roundF64 d < 5 * 2 ^ e ↔ d < 5 * 2 ^ e - 2 ^ (e - 51) := by
  have hX : (0 : ℚ) < 2 ^ e := two_zpow_pos e
  have h2 : (2 : ℚ) ≠ 0 := by norm_num
  have e2 : (2 : ℚ) ^ (e + 2) = 4 * 2 ^ e := by
    rw [zpow_add₀ h2]; norm_num; ring
  have e3 : (2 : ℚ) ^ (e + 3) = 8 * 2 ^ e := by
    rw [zpow_add₀ h2]; norm_num; ring
  have e51 : (2 : ℚ) ^ (e - 51) = 2 ^ e / 2 ^ 51 := by
    rw [zpow_sub₀ h2]; norm_num
  have e50 : (2 : ℚ) ^ (e - 50) = 2 ^ e / 2 ^ 50 := by
    rw [zpow_sub₀ h2]; norm_num
  have hsmall : (2 : ℚ) ^ (e - 51) < 2 ^ e := by
    rw [e51]
    exact div_lt_self hX (by norm_num)
  rcases lt_or_le d (4 * 2 ^ e) with hA | hA
  · -- below the binade of `5 * 2 ^ e`
    have hdbl : roundF64 (4 * 2 ^ e) = 4 * 2 ^ e := by
      have := roundF64_mul_zpow 1 (e + 2) (by norm_num) (by omega)
      rw [e2] at this
      simpa using this
    have hle := roundF64_le d (4 * 2 ^ e) hdbl hA.le
    constructor
    · intro _; linarith
    · intro _; linarith
  rcases le_or_lt (8 * 2 ^ e) d with hB | hB
  · -- above the binade
    have hdbl : roundF64 (8 * 2 ^ e) = 8 * 2 ^ e := by
      have := roundF64_mul_zpow 1 (e + 3) (by norm_num) (by omega)
      rw [e3] at this
      simpa using this
    have hge := le_roundF64 d (8 * 2 ^ e) hdbl hB
    constructor
    · intro h; linarith
    · intro h; linarith
  · -- in the binade: the unit in the last place is `2 ^ (e - 50)`
    have hlog : Int.log 2 |d| = e + 2 := by
      rw [abs_of_nonneg hd]
      exact int_log_two_eq d (e + 2) (by rw [e2]; exact hA)
        (by rw [show e + 2 + 1 = e + 3 by ring, e3]; exact hB)
    have hulp : ulpExp d = e - 50 := by
      unfold ulpExp
      rw [hlog]
      omega
    have hu : (0 : ℚ) < 2 ^ (e - 50) := two_zpow_pos _
    have hE : (5 : ℚ) * 2 ^ e = ((5 * 2 ^ 50 : ℤ) : ℚ) * 2 ^ (e - 50) := by
      rw [e50]
      push_cast
      field_simp
      norm_num
      ring
    have hhalf : (2 : ℚ) ^ (e - 51) = 1 / 2 * 2 ^ (e - 50) := by
      rw [e51, e50]
      field_simp
      norm_num
    unfold roundF64
    rw [hulp, hE, hhalf, mul_lt_mul_right hu]
    rw [show ((5 * 2 ^ 50 : ℤ) : ℚ) * 2 ^ (e - 50) - 1 / 2 * 2 ^ (e - 50) =
      (((5 * 2 ^ 50 : ℤ) : ℚ) - 1 / 2) * 2 ^ (e - 50) by ring, ← div_lt_iff₀ hu]
    rw [Int.cast_lt]
    exact roundHalfEven_lt_iff _ _ (by norm_num)

/-- The rounded value is below `5 * 2 ^ e` in absolute value exactly when the exact value is
below `5 * 2 ^ e` less half a unit in the last place in absolute value. -/
theorem abs_roundF64_lt_five_iff (e : ℤ) (he : -1000 ≤ e) (d : ℚ) :
    |roundF64 d| < 5 * 2 ^ e ↔ |d| < 5 * 2 ^ e - 2 ^ (e - 51) := by
  rcases le_or_lt 0 d with hd | hd
  · rw [abs_of_nonneg hd, abs_of_nonneg (roundF64_nonneg d hd)]
    exact roundF64_lt_five_iff_of_nonneg e he d hd
  · rw [abs_of_neg hd, abs_of_nonpos (roundF64_nonpos d hd.le), ← roundF64_neg]
    exact roundF64_lt_five_iff_of_nonneg e he (-d) (by linarith)

/-- The test `math.Abs(x) < eps` on a delivered result, for `eps = 5 * 2 ^ e`, in exact
arithmetic. -/
theorem abs_ofRat_lt_five_iff (e : ℤ) (he : -1000 ≤ e) (he' : e ≤ 1000) (d : ℚ) :
    F64.lt (F64.abs (F64.ofRat d)) (.fin (5 * 2 ^ e)) = true ↔
      |d| < 5 * 2 ^ e - 2 ^ (e - 51) := by
  rw [← abs_roundF64_lt_five_iff e he d]
  have hbig : (5 : ℚ) * 2 ^ e < 2 ^ 1024 := by
    have h₁ : (2 : ℚ) ^ e ≤ 2 ^ (1000 : ℤ) := zpow_le_zpow_right₀ (by norm_num) he'
    have h₂ : (5 : ℚ) * 2 ^ (1000 : ℤ) < 2 ^ 1024 := by norm_num
    linarith
  rcases ofRat_cases d with h | h | h
  · rw [h.1]
    simp [F64.abs, F64.lt]
  · rw [h.1]
    simp only [F64.abs, F64.lt, Bool.false_eq_true, false_iff, not_lt]
    have := roundF64_nonneg d h.2.1
    rw [abs_of_nonneg this]
    linarith [h.2.2]
  · rw [h.1]
    simp only [F64.abs, F64.lt, Bool.false_eq_true, false_iff, not_lt]
    have := roundF64_nonpos d h.2.1.le
    rw [abs_of_nonpos this]
    linarith [h.2.2]

/-! ## Score aggregation: auxiliary facts -/

/-- The merged annotations hold, for each key, the merged-in value when there is one and the
previous value otherwise. -/
theorem lookup_mergeAnnotations (acc m : Annotations) (k : String) :
    (mergeAnnotations acc m).lookup k = (m.lookup k).elim (acc.lookup k) some :=
  lookup_foldl_update (fun _ v => v) m.entries m.nodupKeys acc k

theorem assessStep_unregistered (H : PluginHolder) (node : String) (st : AssessState)
    (e : ResourceName × F64) (h : H.lookup e.1 = none) : assessStep H node st e = st := by
  simp [assessStep, h]

theorem assessStep_negative (H : PluginHolder) (node : String) (st : AssessState)
    (e : ResourceName × F64) (p : SchedulerPlugin) (h : H.lookup e.1 = some p)
    (hneg : (p.AssessTaskAndNode node (truncToInt e.2)).1 < 0) :
    (assessStep H node st e).nodeScore = -1 := by
  simp [assessStep, h, hneg]

theorem assessStep_sticky (H : PluginHolder) (node : String) (st : AssessState)
    (e : ResourceName × F64) (h : st.nodeScore = -1) :
    (assessStep H node st e).nodeScore = -1 := by
  unfold assessStep
  cases hl : H.lookup e.1 with
  | none => simpa using h
  | some p => simp [h]

theorem foldl_assessStep_sticky (H : PluginHolder) (node : String) :
    ∀ (l : List (ResourceName × F64)) (st : AssessState), st.nodeScore = -1 →
      (l.foldl (assessStep H node) st).nodeScore = -1
  | [], _, h => h
  | e :: l, st, h => by
    rw [List.foldl_cons]
    exact foldl_assessStep_sticky H node l _ (assessStep_sticky H node st e h)

/-- Entries whose name has no plugin leave the loop state untouched. -/
theorem foldl_assessStep_filter (H : PluginHolder) (node : String) :
    ∀ (l : List (ResourceName × F64)) (st : AssessState),
      l.foldl (assessStep H node) st =
        (l.filter fun e => (H.lookup e.1).isSome).foldl (assessStep H node) st
  | [], _ => rfl
  | e :: l, st => by
    cases hl : H.lookup e.1 with
    | none =>
      rw [List.foldl_cons, assessStep_unregistered H node st e hl,
        List.filter_cons_of_neg (by simp [hl])]
      exact foldl_assessStep_filter H node l st
    | some p =>
      rw [List.foldl_cons, List.filter_cons_of_pos (by simp [hl]), List.foldl_cons]
      exact foldl_assessStep_filter H node l _

theorem foldl_assessStep_calls (H : PluginHolder) (node : String) :
    ∀ (l : List (ResourceName × F64)) (st : AssessState),
      (l.foldl (assessStep H node) st).calls = st.calls ++ expectedCalls H node l
  | [], st => by simp [expectedCalls]
  | e :: l, st => by
    rw [List.foldl_cons, foldl_assessStep_calls H node l]
    cases hl : H.lookup e.1 with
    | none => simp [assessStep, hl, expectedCalls]
    | some p =>
      by_cases hc : (p.AssessTaskAndNode node (truncToInt e.2)).1 < 0 ∨ st.nodeScore < 0
      · simp [assessStep, hl, expectedCalls, hc]
      · simp [assessStep, hl, expectedCalls, hc]

/-! ## Score aggregation: the claims -/

/-- C1. Sticky sentinel: if some entry of the demand has a registered plugin that returns a
negative score, then `AssessTaskAndNode` returns node score `-1`, in whatever order the
entries are visited and whatever the other plugins return. -/
theorem sticky_sentinel (H : PluginHolder) (node : String)
    (demand order : List (ResourceName × F64)) (hperm : order.Perm demand)
    (hneg : ∃ e ∈ demand, ∃ p, H.lookup e.1 = some p ∧
      (p.AssessTaskAndNode node (truncToInt e.2)).1 < 0) :
    (AssessTaskAndNode H node order).nodeScore = -1 := by
  obtain ⟨e, he, p, hp, hlt⟩ := hneg
  obtain ⟨l₁, l₂, hsplit⟩ := List.append_of_mem (hperm.mem_iff.mpr he)
  unfold AssessTaskAndNode
  rw [hsplit, List.foldl_append, List.foldl_cons]
  exact foldl_assessStep_sticky H node l₂ _ (assessStep_negative H node _ e p hp hlt)

/-- Witness for C1: the infeasible plugin is visited last, after a plugin of score 5. -/
theorem sticky_sentinel_witness :
    (AssessTaskAndNode gpuXHolder "node" [("gpu", .fin 2), ("x", .fin 1)]).nodeScore = -1 :=
  sticky_sentinel gpuXHolder "node" [("x", .fin 1), ("gpu", .fin 2)]
    [("gpu", .fin 2), ("x", .fin 1)]
    (List.Perm.swap _ _ _) ⟨("x", .fin 1), by simp, xPlugin, rfl, by decide⟩

/-- C2, as stated, fails: with the feasible GPU dimension visited first, the call returns
score `-1` together with the GPU plugin's annotation, not an empty map. -/
theorem scenario3_annotation_not_empty :
    (AssessTaskAndNode gpuXHolder "node" [("gpu", .fin 2), ("x", .fin 1)]).nodeScore = -1 ∧
      (AssessTaskAndNode gpuXHolder "node" [("gpu", .fin 2), ("x", .fin 1)]).nodeAnnotations.lookup
        "gpu-type" = some "A100" ∧
      (AssessTaskAndNode gpuXHolder "node"
        [("gpu", .fin 2), ("x", .fin 1)]).nodeAnnotations ≠ ∅ := by
  refine ⟨rfl, rfl, fun h => ?_⟩
  have hlook : (AssessTaskAndNode gpuXHolder "node"
      [("gpu", .fin 2), ("x", .fin 1)]).nodeAnnotations.lookup
      "gpu-type" = none := by rw [h]; rfl
  exact absurd hlook (by decide)

/-- C2, amended. Two registered dimensions, one plugin returning `(5, A)` and the other
`(-1, B)`: the score is `-1` in both visiting orders; the annotations are empty when the
infeasible dimension is visited first and are those of `A` when the feasible one is. -/
theorem scenario3_both_orders (H : PluginHolder) (node : String) (g x : ResourceName)
    (qg qx : F64) (pg px : SchedulerPlugin) (A B : Annotations)
    (hg : H.lookup g = some pg) (hx : H.lookup x = some px)
    (hpg : pg.AssessTaskAndNode node (truncToInt qg) = (5, A))
    (hpx : px.AssessTaskAndNode node (truncToInt qx) = (-1, B)) :
    (AssessTaskAndNode H node [(x, qx), (g, qg)]).nodeScore = -1 ∧
      (AssessTaskAndNode H node [(x, qx), (g, qg)]).nodeAnnotations = ∅ ∧
      (AssessTaskAndNode H node [(g, qg), (x, qx)]).nodeScore = -1 ∧
      ∀ k, (AssessTaskAndNode H node [(g, qg), (x, qx)]).nodeAnnotations.lookup k = A.lookup k := by
  refine ⟨?_, ?_, ?_, ?_⟩
  · simp [AssessTaskAndNode, assessStep, hg, hx, hpg, hpx]
  · simp [AssessTaskAndNode, assessStep, hg, hx, hpg, hpx]
  · simp [AssessTaskAndNode, assessStep, hg, hx, hpg, hpx]
  · intro k
    have hm := lookup_mergeAnnotations ∅ A k
    cases hA : A.lookup k <;> simp [AssessTaskAndNode, assessStep, hg, hx, hpg, hpx, hm, hA]

/-- Witness for C2 amended: Scenario 3 itself. -/
theorem scenario3_both_orders_witness :
    (AssessTaskAndNode gpuXHolder "node" [("x", .fin 1), ("gpu", .fin 2)]).nodeScore = -1 ∧
      (AssessTaskAndNode gpuXHolder "node" [("x", .fin 1), ("gpu", .fin 2)]).nodeAnnotations = ∅ ∧
      (AssessTaskAndNode gpuXHolder "node" [("gpu", .fin 2), ("x", .fin 1)]).nodeScore = -1 ∧
      ∀ k, (AssessTaskAndNode gpuXHolder "node"
          [("gpu", .fin 2), ("x", .fin 1)]).nodeAnnotations.lookup k =
        gpuAnnotations.lookup k :=
  scenario3_both_orders gpuXHolder "node" "gpu" "x" (.fin 2) (.fin 1) gpuPlugin xPlugin
    gpuAnnotations
    (AList.singleton "x-state" "exhausted") rfl rfl rfl rfl

/-- C3. Skip property: an entry whose name is not registered, inserted anywhere in the visiting
order, changes neither the score nor the annotations nor the hook invocations, and no hook is
invoked for its name. -/
theorem skip_unregistered (H : PluginHolder) (node : String)
    (l₁ l₂ : List (ResourceName × F64)) (n : ResourceName) (q : F64) (hn : H.lookup n = none) :
    AssessTaskAndNode H node (l₁ ++ (n, q) :: l₂) = AssessTaskAndNode H node (l₁ ++ l₂) ∧
      ∀ c ∈ (AssessTaskAndNode H node (l₁ ++ (n, q) :: l₂)).calls, c.rName ≠ n := by
  constructor
  · unfold AssessTaskAndNode
    rw [List.foldl_append, List.foldl_cons, assessStep_unregistered H node _ (n, q) hn,
      List.foldl_append]
  · intro c hc
    unfold AssessTaskAndNode at hc
    rw [foldl_assessStep_calls, List.nil_append] at hc
    obtain ⟨e, _, he⟩ := List.mem_filterMap.mp hc
    intro hcn
    cases hl : H.lookup e.1 with
    | none => simp [hl] at he
    | some p =>
      simp [hl] at he
      rw [← he] at hcn
      simp at hcn
      rw [hcn, hn] at hl
      exact absurd hl (by simp)

/-- Witness for C3: the unregistered FPGA dimension of Scenario 2. -/
theorem skip_unregistered_witness :
    AssessTaskAndNode gpuHolder "node" ([("gpu", .fin 2)] ++ ("widget.io/fpga", .fin 1) :: []) =
        AssessTaskAndNode gpuHolder "node" ([("gpu", .fin 2)] ++ []) ∧
      ∀ c ∈ (AssessTaskAndNode gpuHolder "node"
          ([("gpu", .fin 2)] ++ ("widget.io/fpga", .fin 1) :: [])).calls,
        c.rName ≠ "widget.io/fpga" :=
  skip_unregistered gpuHolder "node" [("gpu", .fin 2)] [] "widget.io/fpga" (.fin 1) rfl

theorem wrapInt_of_fits (x : ℤ) (h₀ : 0 ≤ x) (h₁ : x < 2 ^ 63) : wrapInt x = x := by
  unfold wrapInt
  omega

theorem scoreSum_cons_unregistered (H : PluginHolder) (node : String) (e : ResourceName × F64)
    (l : List (ResourceName × F64)) (h : H.lookup e.1 = none) :
    scoreSum H node (e :: l) = scoreSum H node l := by
  simp [scoreSum, h]

theorem scoreSum_cons_registered (H : PluginHolder) (node : String) (e : ResourceName × F64)
    (l : List (ResourceName × F64)) (p : SchedulerPlugin) (h : H.lookup e.1 = some p) :
    scoreSum H node (e :: l) =
      (p.AssessTaskAndNode node (truncToInt e.2)).1 + scoreSum H node l := by
  simp [scoreSum, h]

theorem scoreSum_nonneg (H : PluginHolder) (node : String) :
    ∀ (l : List (ResourceName × F64)),
      (∀ e ∈ l, ∀ p, H.lookup e.1 = some p →
        0 ≤ (p.AssessTaskAndNode node (truncToInt e.2)).1) →
      0 ≤ scoreSum H node l
  | [], _ => by simp [scoreSum]
  | e :: l, h => by
    have hl := scoreSum_nonneg H node l fun e' he' => h e' (List.mem_cons_of_mem _ he')
    cases hp : H.lookup e.1 with
    | none => rw [scoreSum_cons_unregistered H node e l hp]; exact hl
    | some p =>
      rw [scoreSum_cons_registered H node e l p hp]
      have := h e (List.mem_cons_self _ _) p hp
      omega

/-- While every score met is non-negative and the total fits a Go `int`, the loop adds the
scores up. -/
theorem foldl_assessStep_sum (H : PluginHolder) (node : String) :
    ∀ (l : List (ResourceName × F64)) (st : AssessState), 0 ≤ st.nodeScore →
      (∀ e ∈ l, ∀ p, H.lookup e.1 = some p →
        0 ≤ (p.AssessTaskAndNode node (truncToInt e.2)).1) →
      st.nodeScore + scoreSum H node l < 2 ^ 63 →
      (l.foldl (assessStep H node) st).nodeScore = st.nodeScore + scoreSum H node l
  | [], st, _, _, _ => by simp [scoreSum]
  | e :: l, st, h₀, hnn, hfit => by
    have hnn' : ∀ e' ∈ l, ∀ p, H.lookup e'.1 = some p →
        0 ≤ (p.AssessTaskAndNode node (truncToInt e'.2)).1 :=
      fun e' he' => hnn e' (List.mem_cons_of_mem _ he')
    have hrest := scoreSum_nonneg H node l hnn'
    rw [List.foldl_cons]
    cases hp : H.lookup e.1 with
    | none =>
      rw [scoreSum_cons_unregistered H node e l hp] at hfit ⊢
      rw [assessStep_unregistered H node st e hp]
      exact foldl_assessStep_sum H node l st h₀ hnn' hfit
    | some p =>
      rw [scoreSum_cons_registered H node e l p hp] at hfit ⊢
      have hs := hnn e (List.mem_cons_self _ _) p hp
      have hstep : (assessStep H node st e).nodeScore =
          st.nodeScore + (p.AssessTaskAndNode node (truncToInt e.2)).1 := by
        have hc : ¬ ((p.AssessTaskAndNode node (truncToInt e.2)).1 < 0 ∨ st.nodeScore < 0) := by
          omega
        simp only [assessStep, hp, hc, if_false]
        exact wrapInt_of_fits _ (by omega) (by omega)
      rw [foldl_assessStep_sum H node l _ (by rw [hstep]; omega) hnn' (by rw [hstep]; omega),
        hstep]
      ring

/-- C4, as stated, fails: two plugins that each return the non-negative score `2 ^ 62` sum to
`2 ^ 63`, which a Go `int` cannot hold; the call returns the wrapped value `-2 ^ 63`. -/
theorem score_sum_overflows :
    (∀ e ∈ [(("a" : ResourceName), F64.fin 1), ("b", .fin 1)], ∀ p, hugeHolder.lookup e.1 = some p →
        0 ≤ (p.AssessTaskAndNode "node" (truncToInt e.2)).1) ∧
      scoreSum hugeHolder "node" [("a", .fin 1), ("b", .fin 1)] = 2 ^ 63 ∧
      (AssessTaskAndNode hugeHolder "node" [("a", .fin 1), ("b", .fin 1)]).nodeScore = -2 ^ 63 := by
  refine ⟨?_, by decide, by decide⟩
  intro e he p hp
  simp only [List.mem_cons, List.mem_singleton, List.not_mem_nil, or_false] at he
  rcases he with rfl | rfl
  · have : hugeHolder.lookup "a" = some hugePlugin := rfl
    rw [this] at hp
    cases hp
    decide
  · have : hugeHolder.lookup "b" = some hugePlugin := rfl
    rw [this] at hp
    cases hp
    decide

/-- C4, amended. When every plugin reached returns a non-negative score and the total of
these scores fits a Go `int` (is below `2 ^ 63`), `AssessTaskAndNode` returns as score the
sum, over the demand entries whose name is registered, of the score the entry's plugin returns
for the node and the truncated quantity. -/
theorem score_is_sum (H : PluginHolder) (node : String) (demand : List (ResourceName × F64))
    (hnonneg : ∀ e ∈ demand, ∀ p, H.lookup e.1 = some p →
      0 ≤ (p.AssessTaskAndNode node (truncToInt e.2)).1)
    (hfit : scoreSum H node demand < 2 ^ 63) :
    (AssessTaskAndNode H node demand).nodeScore = scoreSum H node demand := by
  unfold AssessTaskAndNode
  rw [foldl_assessStep_sum H node demand _ (le_refl _) hnonneg (by simpa using hfit)]
  simp

/-- Witness for C4 amended: Scenario 2, score `5` with the GPU plugin's annotation, the FPGA
dimension skipped. -/
theorem score_is_sum_witness :
    (AssessTaskAndNode gpuHolder "node"
        [("gpu", .fin 2), ("widget.io/fpga", .fin 1)]).nodeScore = 5 ∧
      (AssessTaskAndNode gpuHolder "node"
        [("gpu", .fin 2), ("widget.io/fpga", .fin 1)]).nodeAnnotations =
        gpuAnnotations := by
  have hsum : scoreSum gpuHolder "node" [("gpu", .fin 2), ("widget.io/fpga", .fin 1)] = 5 := by
    decide
  refine ⟨?_, rfl⟩
  rw [← hsum]
  refine score_is_sum gpuHolder "node" [("gpu", .fin 2), ("widget.io/fpga", .fin 1)] ?_ (by decide)
  intro e he p hp
  simp only [List.mem_cons, List.mem_singleton, List.not_mem_nil, or_false] at he
  rcases he with rfl | rfl
  · have : gpuHolder.lookup "gpu" = some gpuPlugin := rfl
    rw [this] at hp
    cases hp
    decide
  · have : gpuHolder.lookup "widget.io/fpga" = none := rfl
    rw [this] at hp
    cases hp

/-- C5, as stated, fails: two plugins are assessed and their annotation maps have disjoint
keys, yet the entry of the plugin that returned a negative score is not in the result. -/
theorem annotation_dropped_when_infeasible :
    (AssessTaskAndNode gpuXHolder "node" [("gpu", .fin 2), ("x", .fin 1)]).calls.length = 2 ∧
      (gpuPlugin.AssessTaskAndNode "node" 2).2.lookup "x-state" = none ∧
      (xPlugin.AssessTaskAndNode "node" 1).2.lookup "gpu-type" = none ∧
      (xPlugin.AssessTaskAndNode "node" 1).2.lookup "x-state" = some "exhausted" ∧
      (AssessTaskAndNode gpuXHolder "node" [("gpu", .fin 2), ("x", .fin 1)]).nodeAnnotations.lookup
        "x-state" = none :=
  ⟨rfl, rfl, rfl, rfl, rfl⟩

/-- C5, amended. When exactly two plugins are assessed and both return a non-negative score
(within the range of Go `int`), the returned annotations hold, for every key, the value of the
plugin visited later if it has the key and otherwise the value of the plugin visited first:
with disjoint keys every entry of both maps is present, and on a common key the later value
is the one kept. -/
theorem annotation_merge (H : PluginHolder) (node : String)
    (demand : List (ResourceName × F64)) (e₁ e₂ : ResourceName × F64) (p₁ p₂ : SchedulerPlugin)
    (s₁ s₂ : ℤ) (A₁ A₂ : Annotations)
    (hassessed : (demand.filter fun e => (H.lookup e.1).isSome) = [e₁, e₂])
    (h₁ : H.lookup e₁.1 = some p₁) (h₂ : H.lookup e₂.1 = some p₂)
    (hr₁ : p₁.AssessTaskAndNode node (truncToInt e₁.2) = (s₁, A₁))
    (hr₂ : p₂.AssessTaskAndNode node (truncToInt e₂.2) = (s₂, A₂))
    (hs₁ : 0 ≤ s₁) (hfit : s₁ < 2 ^ 63) (hs₂ : 0 ≤ s₂) (k : String) :
    (AssessTaskAndNode H node demand).nodeAnnotations.lookup k =
      (A₂.lookup k <|> A₁.lookup k) := by
  have hns₁ : ¬ s₁ < 0 := by omega
  have hns₂ : ¬ s₂ < 0 := by omega
  have hw : ¬ wrapInt s₁ < 0 := by rw [wrapInt_of_fits s₁ hs₁ hfit]; exact hns₁
  unfold AssessTaskAndNode
  rw [foldl_assessStep_filter, hassessed]
  simp only [List.foldl_cons, List.foldl_nil, assessStep, h₁, h₂, hr₁, hr₂, hns₁, hns₂, hw,
    lt_self_iff_false, or_self, if_false, zero_add]
  rw [lookup_mergeAnnotations, lookup_mergeAnnotations]
  cases A₂.lookup k <;> cases A₁.lookup k <;> simp

/-- Witness for C5 amended: two feasible plugins colliding on the key `slot`; the value of the
plugin visited later is kept. -/
theorem annotation_merge_witness :
    (AssessTaskAndNode slotHolder "node"
        [("p", .fin 1), ("q", .fin 1)]).nodeAnnotations.lookup "slot" =
      some "second" :=
  annotation_merge slotHolder "node" [("p", .fin 1), ("q", .fin 1)] ("p", .fin 1) ("q", .fin 1)
    firstPlugin secondPlugin 1 2 (AList.singleton "slot" "first") (AList.singleton "slot" "second")
    rfl rfl rfl rfl rfl (by decide) (by decide) (by decide) "slot"

theorem truncate_spec (q : ℚ) :
    |(truncate q : ℚ)| ≤ |q| ∧ |q - truncate q| < 1 ∧ (0 ≤ truncate q ↔ -1 < q) := by
  unfold truncate
  by_cases hq : 0 ≤ q
  · rw [if_pos hq]
    have h₁ : ((⌊q⌋ : ℤ) : ℚ) ≤ q := Int.floor_le q
    have h₂ : q < ⌊q⌋ + 1 := Int.lt_floor_add_one q
    have h₃ : 0 ≤ ⌊q⌋ := Int.floor_nonneg.mpr hq
    have h₄ : (0 : ℚ) ≤ ⌊q⌋ := by exact_mod_cast h₃
    refine ⟨?_, ?_, ?_⟩
    · rw [abs_of_nonneg h₄, abs_of_nonneg hq]; exact h₁
    · rw [abs_of_nonneg (by linarith)]; linarith
    · constructor
      · intro _; linarith
      · intro _; exact h₃
  · rw [if_neg hq]
    have hq' : q < 0 := not_le.mp hq
    have h₁ : q ≤ ⌈q⌉ := Int.le_ceil q
    have h₂ : (⌈q⌉ : ℚ) < q + 1 := Int.ceil_lt_add_one q
    have h₃ : ⌈q⌉ ≤ 0 := Int.ceil_le.mpr (by exact_mod_cast hq'.le)
    have h₄ : ((⌈q⌉ : ℤ) : ℚ) ≤ 0 := by exact_mod_cast h₃
    refine ⟨?_, ?_, ?_⟩
    · rw [abs_of_nonpos h₄, abs_of_neg hq']; linarith
    · rw [abs_of_nonpos (by linarith)]; linarith
    · constructor
      · intro h
        have h₅ : ((0 : ℤ) : ℚ) ≤ ⌈q⌉ := by exact_mod_cast h
        have : (0 : ℚ) ≤ ⌈q⌉ := by simpa using h₅
        linarith
      · intro h
        have : (-1 : ℤ) < ⌈q⌉ := Int.lt_ceil.mpr (by simpa using h)
        omega

/-- A finite quantity below `2 ^ 63` in magnitude is converted to its truncation. -/
theorem truncToInt_of_fits (q : ℚ) (h : |q| < 2 ^ 63) : truncToInt (.fin q) = truncate q := by
  have hspec := (truncate_spec q).1
  have habs : |(truncate q : ℚ)| < 2 ^ 63 := lt_of_le_of_lt hspec h
  have hint : |truncate q| < 2 ^ 63 := by
    have : ((|truncate q| : ℤ) : ℚ) < ((2 ^ 63 : ℤ) : ℚ) := by
      rw [Int.cast_abs]
      norm_num at habs ⊢
      exact habs
    exact_mod_cast this
  have hrange : -2 ^ 63 ≤ truncate q ∧ truncate q < 2 ^ 63 := by
    have := abs_lt.mp hint
    constructor <;> omega
  simp only [truncToInt, hrange, and_self, if_true]

/-- A finite quantity of magnitude `2 ^ 63` or more is converted to the smallest `int`. -/
theorem truncToInt_of_overflow (q : ℚ) (h : 2 ^ 63 ≤ |q|) : truncToInt (.fin q) = -2 ^ 63 := by
  obtain ⟨-, hnear, -⟩ := truncate_spec q
  have hnear' := abs_lt.mp hnear
  show (if -2 ^ 63 ≤ truncate q ∧ truncate q < 2 ^ 63 then truncate q else -2 ^ 63) = -2 ^ 63
  by_cases hrange : -2 ^ 63 ≤ truncate q ∧ truncate q < 2 ^ 63
  · rw [if_pos hrange]
    rcases le_or_lt 0 q with hq | hq
    · exfalso
      rw [abs_of_nonneg hq] at h
      have h₁ : ((2 ^ 63 : ℤ) : ℚ) ≤ q := by norm_num at h ⊢; exact h
      have h₂ : (2 ^ 63 : ℤ) ≤ ⌊q⌋ := Int.le_floor.mpr h₁
      have h₃ : truncate q = ⌊q⌋ := by unfold truncate; rw [if_pos hq]
      omega
    · rw [abs_of_neg hq] at h
      have h₁ : q ≤ ((-2 ^ 63 : ℤ) : ℚ) := by norm_num at h ⊢; linarith
      have h₂ : ⌈q⌉ ≤ (-2 ^ 63 : ℤ) := Int.ceil_le.mpr h₁
      have h₃ : truncate q = ⌈q⌉ := by unfold truncate; rw [if_neg (not_le.mpr hq)]
      omega
  · rw [if_neg hrange]

theorem requireNumSpec_truncToInt (v : F64) : requireNumSpec v (truncToInt v) := by
  cases v with
  | fin q =>
    refine ⟨fun h => ?_, truncToInt_of_overflow q⟩
    rw [truncToInt_of_fits q h]
    exact truncate_spec q
  | pinf => rfl
  | ninf => rfl
  | nan => rfl

/-- C6, as stated, fails: for the demand quantity `-5/2` of a registered dimension the hook
receives `requireNum = -2`, a negative integer. -/
theorem requireNum_negative :
    (AssessTaskAndNode gpuHolder "node" [("gpu", .fin (-5 / 2))]).calls =
        [{ rName := "gpu", nodeName := "node", requireNum := -2 }] ∧
      ∃ c ∈ (AssessTaskAndNode gpuHolder "node" [("gpu", .fin (-5 / 2))]).calls,
        c.requireNum < 0 := by
  have ht : truncToInt (.fin (-5 / 2)) = -2 := by
    rw [truncToInt_of_fits _ (by rw [abs_lt]; constructor <;> norm_num)]
    have h : ¬ (0 : ℚ) ≤ -5 / 2 := by norm_num
    rw [truncate, if_neg h, Int.ceil_eq_iff]
    norm_num
  have hl : gpuHolder.lookup "gpu" = some gpuPlugin := rfl
  have hcalls : (AssessTaskAndNode gpuHolder "node" [("gpu", .fin (-5 / 2))]).calls =
      [{ rName := "gpu", nodeName := "node", requireNum := -2 }] := by
    unfold AssessTaskAndNode
    rw [foldl_assessStep_calls]
    simp [expectedCalls, hl, ht]
  refine ⟨hcalls, ?_⟩
  rw [hcalls]
  exact ⟨_, List.mem_singleton_self _, by decide⟩

/-- C6, amended. The hook of every registered dimension of the demand, and of no other, is
invoked once.  For a finite quantity of magnitude below `2 ^ 63` the integer it receives is
the quantity truncated toward zero (no larger in magnitude than the quantity and less than
one away from it), non-negative exactly when the quantity is greater than `-1`.  For a
quantity of magnitude `2 ^ 63` or more, an infinity or NaN it receives the smallest `int`. -/
theorem requireNum_truncated (H : PluginHolder) (node : String)
    (demand : List (ResourceName × F64)) :
    (AssessTaskAndNode H node demand).calls = expectedCalls H node demand ∧
      (∀ c ∈ (AssessTaskAndNode H node demand).calls,
        ∃ e ∈ demand, (H.lookup e.1).isSome = true ∧ c.rName = e.1 ∧ c.nodeName = node ∧
          requireNumSpec e.2 c.requireNum) ∧
      ∀ e ∈ demand, (H.lookup e.1).isSome = true →
        ∃ c ∈ (AssessTaskAndNode H node demand).calls,
          c.rName = e.1 ∧ c.nodeName = node ∧ requireNumSpec e.2 c.requireNum := by
  have hcalls : (AssessTaskAndNode H node demand).calls = expectedCalls H node demand := by
    unfold AssessTaskAndNode
    rw [foldl_assessStep_calls, List.nil_append]
  refine ⟨hcalls, ?_, ?_⟩
  · intro c hc
    rw [hcalls] at hc
    obtain ⟨e, he, hce⟩ := List.mem_filterMap.mp hc
    by_cases hreg : (H.lookup e.1).isSome = true
    · rw [if_pos hreg] at hce
      have hc' := Option.some.inj hce
      subst hc'
      exact ⟨e, he, hreg, rfl, rfl, requireNumSpec_truncToInt e.2⟩
    · rw [if_neg hreg] at hce
      exact absurd hce (by simp)
  · intro e he hreg
    refine ⟨{ rName := e.1, nodeName := node, requireNum := truncToInt e.2 }, ?_, rfl, rfl,
      requireNumSpec_truncToInt e.2⟩
    rw [hcalls]
    exact List.mem_filterMap.mpr ⟨e, he, by rw [if_pos hreg]⟩

/-- Witness for C6 amended: the quantities `2`, `2 ^ 63` and NaN of a registered dimension
reach the hook as `2`, as the smallest `int` and as the smallest `int`. -/
theorem requireNum_truncated_witness :
    (AssessTaskAndNode gpuHolder "node" [("gpu", .fin 2)]).calls =
        [{ rName := "gpu", nodeName := "node", requireNum := 2 }] ∧
      (AssessTaskAndNode gpuHolder "node" [("gpu", .fin (2 ^ 63))]).calls =
        [{ rName := "gpu", nodeName := "node", requireNum := -2 ^ 63 }] ∧
      (AssessTaskAndNode gpuHolder "node" [("gpu", .nan)]).calls =
        [{ rName := "gpu", nodeName := "node", requireNum := -2 ^ 63 }] := by
  have hl : gpuHolder.lookup "gpu" = some gpuPlugin := rfl
  have h₂ : truncToInt (.fin 2) = 2 := by
    rw [truncToInt_of_fits _ (by rw [abs_lt]; constructor <;> norm_num)]
    simp [truncate]
  have h₆₃ : truncToInt (.fin (2 ^ 63)) = -2 ^ 63 :=
    truncToInt_of_overflow _ (by rw [abs_of_pos (by norm_num)])
  refine ⟨?_, ?_, ?_⟩
  · rw [(requireNum_truncated gpuHolder "node" [("gpu", .fin 2)]).1]
    simp [expectedCalls, hl, h₂]
  · rw [(requireNum_truncated gpuHolder "node" [("gpu", .fin (2 ^ 63))]).1]
    simp [expectedCalls, hl, h₆₃]
  · rw [(requireNum_truncated gpuHolder "node" [("gpu", .nan)]).1]
    simp [expectedCalls, hl, truncToInt]

/-! ## Resource vectors: auxiliary facts -/

theorem lessEqualExtend_iff (other : ExtendMap) :
    ∀ es : List (Sigma fun _ : ResourceName => F64),
      lessEqualExtend es other = true ↔
        ∀ e ∈ es, ∃ w, other.lookup e.1 = some w ∧ F64.gt e.2 w = false
  | [] => by simp [lessEqualExtend]
  | ⟨n, v⟩ :: rest => by
    have ih := lessEqualExtend_iff other rest
    cases hl : other.lookup n with
    | none => simp [lessEqualExtend, hl]
    | some w =>
      cases hvw : F64.gt v w with
      | true => simp [lessEqualExtend, hl, hvw]
      | false => simp [lessEqualExtend, hl, hvw, ih]

/-- What the extended-map loop of `LessEqual` decides: every name of the receiver is a key of
the argument, with a value that is not greater. -/
theorem lessEqualExtend_entries (m other : ExtendMap) :
    lessEqualExtend m.entries other = true ↔
      ∀ n v, m.lookup n = some v → ∃ w, other.lookup n = some w ∧ F64.gt v w = false := by
  rw [lessEqualExtend_iff]
  constructor
  · intro h n v hv
    exact h ⟨n, v⟩ (AList.mem_lookup_iff.mp hv)
  · rintro h ⟨n, v⟩ he
    exact h n v (AList.mem_lookup_iff.mpr he)

theorem lessExtend_iff (other : ExtendMap) :
    ∀ es : List (Sigma fun _ : ResourceName => F64),
      lessExtend es other = true ↔
        ∀ e ∈ es, ∃ w, other.lookup e.1 = some w ∧ F64.ge e.2 w = false
  | [] => by simp [lessExtend]
  | ⟨n, v⟩ :: rest => by
    have ih := lessExtend_iff other rest
    cases hl : other.lookup n with
    | none => simp [lessExtend, hl]
    | some w =>
      cases hvw : F64.ge v w with
      | true => simp [lessExtend, hl, hvw]
      | false => simp [lessExtend, hl, hvw, ih]

theorem lookup_sub_extend (m other : ExtendMap) (n : ResourceName) :
    (other.foldl subEntry m).lookup n =
      (other.lookup n).elim (m.lookup n) fun v =>
        some (f64sub ((m.lookup n).getD (.fin 0)) v) :=
  lookup_foldl_update (fun o v => f64sub (o.getD (.fin 0)) v) other.entries other.nodupKeys m n

theorem addEntry_eq (m : ExtendMap) (n : ResourceName) (v : F64) :
    addEntry m n v = m.insert n (f64add ((m.lookup n).getD (.fin 0)) v) := by
  unfold addEntry
  cases h : m.lookup n with
  | none => simp [AList.insert_insert]
  | some w => simp [h]

theorem lookup_add_extend (m other : ExtendMap) (n : ResourceName) :
    (other.foldl addEntry m).lookup n =
      (other.lookup n).elim (m.lookup n) fun v =>
        some (f64add ((m.lookup n).getD (.fin 0)) v) := by
  have h := lookup_foldl_update (fun o v => f64add (o.getD (.fin 0)) v) other.entries
    other.nodupKeys m n
  have hfun : (fun (r : ExtendMap) (a : Sigma fun _ : ResourceName => F64) =>
      addEntry r a.1 a.2) =
      fun r a => r.insert a.1 (f64add ((r.lookup a.1).getD (.fin 0)) a.2) := by
    funext r a
    exact addEntry_eq r a.1 a.2
  unfold AList.foldl
  rw [hfun]
  exact h

theorem lookup_clone_extend (m : ExtendMap) (n : ResourceName) :
    (m.foldl (fun (clone : ExtendMap) k v => clone.insert k v) ∅).lookup n = m.lookup n := by
  have h := lookup_foldl_update (fun _ (v : F64) => v) m.entries m.nodupKeys ∅ n
  have h' : (m.foldl (fun (clone : ExtendMap) k v => clone.insert k v) ∅).lookup n =
      (m.lookup n).elim (AList.lookup n (∅ : ExtendMap)) some := h
  rw [h']
  cases m.lookup n <;> simp

/-- What `LessEqual` decides. -/
theorem lessEqual_iff (r rr : Resource) :
    r.LessEqual rr = true ↔
      (∀ n v, r.ExtendDevices.lookup n = some v →
          ∃ w, rr.ExtendDevices.lookup n = some w ∧ F64.gt v w = false) ∧
        (r.MilliCPU < rr.MilliCPU ∨
          F64.abs (f64sub rr.MilliCPU r.MilliCPU) < minMilliCPU) ∧
        (r.Memory < rr.Memory ∨ F64.abs (f64sub rr.Memory r.Memory) < minMemory) ∧
        (r.MilliGPU < rr.MilliGPU ∨
          F64.abs (f64sub rr.MilliGPU r.MilliGPU) < minMilliGPU) := by
  rw [← lessEqualExtend_entries]
  simp [Resource.LessEqual, and_assoc, f64_lt_def]

theorem lessEqual_scalars (r rr : Resource) (h : r.LessEqual rr = true) :
    (r.MilliCPU < rr.MilliCPU ∨ F64.abs (f64sub rr.MilliCPU r.MilliCPU) < minMilliCPU) ∧
      (r.Memory < rr.Memory ∨ F64.abs (f64sub rr.Memory r.Memory) < minMemory) ∧
      (r.MilliGPU < rr.MilliGPU ∨ F64.abs (f64sub rr.MilliGPU r.MilliGPU) < minMilliGPU) :=
  ((lessEqual_iff r rr).mp h).2

/-- What `Less` decides. -/
theorem less_iff (r rr : Resource) :
    r.Less rr = true ↔
      (∀ n v, r.ExtendDevices.lookup n = some v →
          ∃ w, rr.ExtendDevices.lookup n = some w ∧ F64.ge v w = false) ∧
        r.MilliCPU < rr.MilliCPU ∧ r.Memory < rr.Memory ∧ r.MilliGPU < rr.MilliGPU := by
  have hext : lessExtend r.ExtendDevices.entries rr.ExtendDevices = true ↔
      ∀ n v, r.ExtendDevices.lookup n = some v →
        ∃ w, rr.ExtendDevices.lookup n = some w ∧ F64.ge v w = false := by
    rw [lessExtend_iff]
    constructor
    · intro h n v hv
      exact h ⟨n, v⟩ (AList.mem_lookup_iff.mp hv)
    · rintro h ⟨n, v⟩ he
      exact h n v (AList.mem_lookup_iff.mpr he)
  rw [← hext]
  simp [Resource.Less, and_assoc, f64_lt_def]

theorem sub_eq_some (r rr : Resource) (h : rr.LessEqual r = true) :
    r.Sub rr = some
      { MilliCPU := f64sub r.MilliCPU rr.MilliCPU
        Memory := f64sub r.Memory rr.Memory
        MilliGPU := f64sub r.MilliGPU rr.MilliGPU
        ExtendDevices := rr.ExtendDevices.foldl subEntry r.ExtendDevices } := by
  simp [Resource.Sub, h]

/-- The result of a successful `Sub`, field by field. -/
theorem sub_spec (r rr : Resource) (h : rr.LessEqual r = true) :
    ∃ s, r.Sub rr = some s ∧ s.MilliCPU = f64sub r.MilliCPU rr.MilliCPU ∧
      s.Memory = f64sub r.Memory rr.Memory ∧ s.MilliGPU = f64sub r.MilliGPU rr.MilliGPU ∧
      ∀ n, s.ExtendDevices.lookup n =
        (rr.ExtendDevices.lookup n).elim (r.ExtendDevices.lookup n) fun v =>
          some (f64sub ((r.ExtendDevices.lookup n).getD (.fin 0)) v) :=
  ⟨_, sub_eq_some r rr h, rfl, rfl, rfl, fun n => lookup_sub_extend _ _ n⟩

theorem add_lookup (r rr : Resource) (n : ResourceName) :
    (r.Add rr).ExtendDevices.lookup n =
      (rr.ExtendDevices.lookup n).elim (r.ExtendDevices.lookup n) fun v =>
        some (f64add ((r.ExtendDevices.lookup n).getD (.fin 0)) v) :=
  lookup_add_extend _ _ n

theorem clone_lookup (r : Resource) (n : ResourceName) :
    r.Clone.ExtendDevices.lookup n = r.ExtendDevices.lookup n :=
  lookup_clone_extend _ n

theorem sub_eq_none_iff (r rr : Resource) :
    r.Sub rr = none ↔ rr.LessEqual r = false := by
  unfold Resource.Sub
  cases rr.LessEqual r <;> simp

/-- A successful `Sub` passed the guard. -/
theorem lessEqual_of_sub_eq_some (r rr s : Resource) (hs : r.Sub rr = some s) :
    rr.LessEqual r = true := by
  cases h : rr.LessEqual r with
  | true => rfl
  | false =>
    rw [(sub_eq_none_iff r rr).mpr h] at hs
    exact absurd hs (by simp)

theorem f64sub_fin (p q : ℚ) : f64sub (.fin p) (.fin q) = F64.ofRat (p - q) := rfl

theorem f64add_fin (p q : ℚ) : f64add (.fin p) (.fin q) = F64.ofRat (p + q) := rfl

theorem f64sub_zero_zero : f64sub (.fin 0) (.fin 0) = .fin 0 := by
  rw [f64sub_fin, sub_self, ofRat_zero]

theorem f64sub_small_int (x y : ℤ) (h : |x - y| < 2 ^ 53) :
    f64sub (.fin x) (.fin y) = .fin ((x - y : ℤ) : ℚ) := by
  rw [f64sub_fin]
  have := ofRat_intCast (x - y) h
  push_cast at this ⊢
  exact this

theorem f64add_small_int (x y : ℤ) (h : |x + y| < 2 ^ 53) :
    f64add (.fin x) (.fin y) = .fin ((x + y : ℤ) : ℚ) := by
  rw [f64add_fin]
  have := ofRat_intCast (x + y) h
  push_cast at this ⊢
  exact this

theorem abs_zero_lt_min :
    F64.abs (.fin 0) < minMilliCPU ∧ F64.abs (.fin 0) < minMemory ∧
      F64.abs (.fin 0) < minMilliGPU := by
  refine ⟨?_, ?_, ?_⟩ <;>
    simp [f64_lt_def, F64.abs, F64.lt, minMilliCPU, minMemory, minMilliGPU]

theorem lessEqual_cpuOnly (x y : F64)
    (h : x < y ∨ F64.abs (f64sub y x) < minMilliCPU) :
    (cpuOnly x).LessEqual (cpuOnly y) = true := by
  rw [lessEqual_iff]
  refine ⟨?_, h, ?_, ?_⟩
  · intro n v hv
    simp [cpuOnly] at hv
  · right
    show F64.abs (f64sub (.fin 0) (.fin 0)) < minMemory
    rw [f64sub_zero_zero]
    exact abs_zero_lt_min.2.1
  · right
    show F64.abs (f64sub (.fin 0) (.fin 0)) < minMilliGPU
    rw [f64sub_zero_zero]
    exact abs_zero_lt_min.2.2

/-! ## Resource vectors: the claims -/

/-- C7. `Sub` is guarded exactly by `LessEqual`: `r.Sub(rr)` panics if and only if
`rr.LessEqual(r)` is false.  When it succeeds the three scalars of the result are the
component-wise `float64` differences, every extended entry of `rr` has been subtracted from
the entry of `r` with the same name (which exists), and every extended entry that only `r`
has is unchanged. -/
theorem sub_guarded_by_lessEqual (r rr : Resource) :
    (r.Sub rr = none ↔ rr.LessEqual r = false) ∧
      ∀ s, r.Sub rr = some s →
        s.MilliCPU = f64sub r.MilliCPU rr.MilliCPU ∧
        s.Memory = f64sub r.Memory rr.Memory ∧
        s.MilliGPU = f64sub r.MilliGPU rr.MilliGPU ∧
        (∀ n v, rr.ExtendDevices.lookup n = some v →
          ∃ w, r.ExtendDevices.lookup n = some w ∧
            s.ExtendDevices.lookup n = some (f64sub w v)) ∧
        ∀ n, rr.ExtendDevices.lookup n = none →
          s.ExtendDevices.lookup n = r.ExtendDevices.lookup n := by
  constructor
  · unfold Resource.Sub
    cases rr.LessEqual r <;> simp
  · intro s hs
    unfold Resource.Sub at hs
    cases hle : rr.LessEqual r with
    | false => simp [hle] at hs
    | true =>
      simp only [hle, if_true, Option.some.injEq] at hs
      subst hs
      refine ⟨rfl, rfl, rfl, ?_, ?_⟩
      · intro n v hv
        have hext : lessEqualExtend rr.ExtendDevices.entries r.ExtendDevices = true := by
          unfold Resource.LessEqual at hle
          exact (Bool.and_eq_true _ _ ▸ hle).1
        obtain ⟨w, hw, _⟩ := (lessEqualExtend_entries _ _).mp hext n v hv
        refine ⟨w, hw, ?_⟩
        show (rr.ExtendDevices.foldl subEntry r.ExtendDevices).lookup n = _
        rw [lookup_sub_extend, hv, hw]
        rfl
      · intro n hn
        show (rr.ExtendDevices.foldl subEntry r.ExtendDevices).lookup n = _
        rw [lookup_sub_extend, hn]
        rfl

/-- Witness for C7: Scenario 1, `{cpu 2000, mem 4Gi}` minus `{cpu 500, mem 1Gi}` is
`{cpu 1500, mem 3Gi}`. -/
theorem sub_guarded_by_lessEqual_witness :
    ∃ s, scenario1Total.Sub scenario1Request = some s ∧ s.MilliCPU = .fin 1500 ∧
      s.Memory = .fin (3 * 1024 ^ 3) ∧ s.MilliGPU = .fin 0 := by
  have hle : scenario1Request.LessEqual scenario1Total = true := by
    rw [lessEqual_iff]
    refine ⟨?_, ?_, ?_, ?_⟩
    · intro n v hv
      simp [scenario1Request] at hv
    · left
      show F64.fin 500 < F64.fin 2000
      rw [f64_fin_lt_fin]; norm_num
    · left
      show F64.fin (1 * 1024 ^ 3) < F64.fin (4 * 1024 ^ 3)
      rw [f64_fin_lt_fin]; norm_num
    · right
      show F64.abs (f64sub (.fin 0) (.fin 0)) < minMilliGPU
      rw [f64sub_zero_zero]
      exact abs_zero_lt_min.2.2
  obtain ⟨hnone, hres⟩ := sub_guarded_by_lessEqual scenario1Total scenario1Request
  cases hs : scenario1Total.Sub scenario1Request with
  | none =>
    rw [hnone.mp hs] at hle
    exact absurd hle (by simp)
  | some s =>
    obtain ⟨h₁, h₂, h₃, -, -⟩ := hres s hs
    refine ⟨s, rfl, ?_, ?_, ?_⟩
    · rw [h₁]
      have := f64sub_small_int 2000 500 (by norm_num)
      norm_num at this
      exact this
    · rw [h₂]
      have := f64sub_small_int (4 * 1024 ^ 3) (1 * 1024 ^ 3) (by norm_num)
      norm_num at this
      show f64sub (.fin (4 * 1024 ^ 3)) (.fin (1 * 1024 ^ 3)) = .fin (3 * 1024 ^ 3)
      norm_num
      exact this
    · rw [h₃]
      exact f64sub_zero_zero

/-- Below `2 ^ 55` in magnitude an exact result is delivered as a finite value at most `2`
away. -/
theorem ofRat_small (x : ℚ) (h : |x| < 2 ^ 55) :
    F64.ofRat x = .fin (roundF64 x) ∧ |roundF64 x - x| ≤ 2 := by
  have herr := roundF64_error_small x h
  refine ⟨?_, herr⟩
  unfold F64.ofRat
  rw [if_pos]
  have h₁ := abs_le.mp herr
  have h₂ := abs_lt.mp h
  rw [abs_lt]
  constructor <;> norm_num at h₂ ⊢ <;> linarith

/-- Subtracting and adding back, or adding and subtracting, moves a finite scalar of magnitude
at most `2 ^ 53` by at most `4`: two roundings of at most `2` each, and no overflow. -/
theorem f64add_f64sub_near (p q : ℚ) (hp : |p| ≤ 2 ^ 53) (hq : |q| ≤ 2 ^ 53) :
    (∃ t, f64add (f64sub (.fin p) (.fin q)) (.fin q) = .fin t ∧ |t - p| ≤ 4) ∧
      ∃ t, f64sub (f64add (.fin p) (.fin q)) (.fin q) = .fin t ∧ |t - p| ≤ 4 := by
  have hp' := abs_le.mp hp
  have hq' := abs_le.mp hq
  constructor
  · obtain ⟨h₁, e₁⟩ := ofRat_small (p - q) (by rw [abs_lt]; constructor <;> linarith)
    have e₁' := abs_le.mp e₁
    obtain ⟨h₂, e₂⟩ := ofRat_small (roundF64 (p - q) + q)
      (by rw [abs_lt]; constructor <;> linarith)
    have e₂' := abs_le.mp e₂
    refine ⟨roundF64 (roundF64 (p - q) + q), ?_, ?_⟩
    · rw [f64sub_fin, h₁, f64add_fin, h₂]
    · rw [abs_le]; constructor <;> linarith
  · obtain ⟨h₁, e₁⟩ := ofRat_small (p + q) (by rw [abs_lt]; constructor <;> linarith)
    have e₁' := abs_le.mp e₁
    obtain ⟨h₂, e₂⟩ := ofRat_small (roundF64 (p + q) - q)
      (by rw [abs_lt]; constructor <;> linarith)
    have e₂' := abs_le.mp e₂
    refine ⟨roundF64 (roundF64 (p + q) - q), ?_, ?_⟩
    · rw [f64add_fin, h₁, f64sub_fin, h₂]
    · rw [abs_le]; constructor <;> linarith

theorem roundF64_tie_example : roundF64 (2 ^ 57 + 16) = 2 ^ 57 := by
  have hlog : Int.log 2 |(2 ^ 57 + 16 : ℚ)| = 57 := by
    rw [abs_of_pos (by norm_num)]
    exact int_log_two_eq _ 57 (by norm_num) (by norm_num)
  have hulp : ulpExp (2 ^ 57 + 16) = 5 := by
    unfold ulpExp
    rw [hlog]
    norm_num
  have hk : (2 ^ 57 + 16 : ℚ) / 2 ^ (5 : ℤ) = 2 ^ 52 + 1 / 2 := by norm_num
  have hfloor : ⌊(2 ^ 52 + 1 / 2 : ℚ)⌋ = 2 ^ 52 := by
    rw [Int.floor_eq_iff]
    norm_num
  have hround : roundHalfEven (2 ^ 52 + 1 / 2) = 2 ^ 52 := by
    unfold roundHalfEven
    simp only [hfloor]
    norm_num
  unfold roundF64
  rw [hulp, hk, hround]
  norm_num

theorem ofRat_tie_example : F64.ofRat (2 ^ 57 + 16) = .fin (2 ^ 57) := by
  unfold F64.ofRat
  rw [roundF64_tie_example, if_pos (by norm_num)]

theorem ofRat_two_pow_57_add_32 : F64.ofRat (2 ^ 57 + 32) = .fin (2 ^ 57 + 32) := by
  apply ofRat_of_double
  · have := roundF64_mul_zpow (2 ^ 52 + 1) 5 (by norm_num) (by norm_num)
    norm_num at this ⊢
    exact this
  · norm_num

theorem ofRat_two_pow_57 : F64.ofRat (2 ^ 57) = .fin (2 ^ 57) := by
  apply ofRat_of_double
  · have := roundF64_mul_zpow 1 57 (by norm_num) (by norm_num)
    norm_num at this ⊢
    exact this
  · norm_num

theorem ofRat_sixteen : F64.ofRat 16 = .fin 16 := by
  exact_mod_cast ofRat_intCast 16 (by norm_num)

/-- C8, as stated, fails: `{cpu 16}` is `LessEqual` to `{cpu 2^57 + 32}` (both are doubles),
the subtraction succeeds, but `2^57 + 16` lies halfway between two doubles and is rounded to
`2^57`, and so is the sum when `16` is added back: the result is `32` millicores away from
the original, more than the epsilon `10`. -/
theorem sub_then_add_off_by_rounding :
    F64.ofRat (2 ^ 57 + 32) = .fin (2 ^ 57 + 32) ∧ F64.ofRat 16 = .fin 16 ∧
      (cpuOnly (.fin 16)).LessEqual (cpuOnly (.fin (2 ^ 57 + 32))) = true ∧
      ∃ s, (cpuOnly (.fin (2 ^ 57 + 32))).Sub (cpuOnly (.fin 16)) = some s ∧
        (s.Add (cpuOnly (.fin 16))).MilliCPU = .fin (2 ^ 57) ∧
        ¬ |(2 ^ 57 : ℚ) - (2 ^ 57 + 32)| < 10 := by
  have hle : (cpuOnly (.fin 16)).LessEqual (cpuOnly (.fin (2 ^ 57 + 32))) = true :=
    lessEqual_cpuOnly _ _ (Or.inl (by rw [f64_fin_lt_fin]; norm_num))
  have hsub : f64sub (.fin (2 ^ 57 + 32)) (.fin 16) = .fin (2 ^ 57) := by
    rw [f64sub_fin]
    have : (2 ^ 57 + 32 - 16 : ℚ) = 2 ^ 57 + 16 := by norm_num
    rw [this, ofRat_tie_example]
  have hadd : f64add (.fin (2 ^ 57)) (.fin 16) = .fin (2 ^ 57) := by
    rw [f64add_fin]
    exact ofRat_tie_example
  refine ⟨ofRat_two_pow_57_add_32, ofRat_sixteen, hle, _, sub_eq_some _ _ hle, ?_, ?_⟩
  · show f64add (f64sub (.fin (2 ^ 57 + 32)) (.fin 16)) (.fin 16) = .fin (2 ^ 57)
    rw [hsub, hadd]
  · norm_num

/-- C8, amended. For all `a` and `b` with `b.LessEqual(a)`, `a.Sub(b)` does not fail.  Adding
`b` back to the result gives each scalar of `a` within that dimension's epsilon when the
scalars of `a` and `b` are finite with magnitude at most `2 ^ 53`; it gives the extended names
of `a`, with the value of `a` for every name `b` does not have and for every name whose
subtraction was exact. -/
theorem sub_then_add_within_epsilon (a b : Resource) (hle : b.LessEqual a = true) :
    ∃ s, a.Sub b = some s ∧
      (∀ p q, a.MilliCPU = .fin p → b.MilliCPU = .fin q → |p| ≤ 2 ^ 53 → |q| ≤ 2 ^ 53 →
        ∃ t, (s.Add b).MilliCPU = .fin t ∧ |t - p| < 10) ∧
      (∀ p q, a.Memory = .fin p → b.Memory = .fin q → |p| ≤ 2 ^ 53 → |q| ≤ 2 ^ 53 →
        ∃ t, (s.Add b).Memory = .fin t ∧ |t - p| < 10 * 1024 * 1024) ∧
      (∀ p q, a.MilliGPU = .fin p → b.MilliGPU = .fin q → |p| ≤ 2 ^ 53 → |q| ≤ 2 ^ 53 →
        ∃ t, (s.Add b).MilliGPU = .fin t ∧ |t - p| < 10) ∧
      (∀ n, ((s.Add b).ExtendDevices.lookup n).isSome = (a.ExtendDevices.lookup n).isSome) ∧
      (∀ n, b.ExtendDevices.lookup n = none →
        (s.Add b).ExtendDevices.lookup n = a.ExtendDevices.lookup n) ∧
      ∀ n p q, b.ExtendDevices.lookup n = some (.fin q) →
        a.ExtendDevices.lookup n = some (.fin p) →
        f64sub (.fin p) (.fin q) = .fin (p - q) → F64.ofRat p = .fin p →
        (s.Add b).ExtendDevices.lookup n = some (.fin p) := by
  have hext := ((lessEqual_iff b a).mp hle).1
  obtain ⟨s, hs, hcpu, hmem, hgpu, hsl⟩ := sub_spec a b hle
  have hlook : ∀ n, (s.Add b).ExtendDevices.lookup n =
      (b.ExtendDevices.lookup n).elim (a.ExtendDevices.lookup n) fun v =>
        some (f64add (f64sub ((a.ExtendDevices.lookup n).getD (.fin 0)) v) v) := by
    intro n
    rw [add_lookup, hsl]
    cases b.ExtendDevices.lookup n <;> rfl
  refine ⟨s, hs, ?_, ?_, ?_, ?_, ?_, ?_⟩
  · intro p q ha hb hp hq
    obtain ⟨t, ht, hnear⟩ := (f64add_f64sub_near p q hp hq).1
    refine ⟨t, ?_, by linarith⟩
    show f64add s.MilliCPU b.MilliCPU = .fin t
    rw [hcpu, ha, hb, ht]
  · intro p q ha hb hp hq
    obtain ⟨t, ht, hnear⟩ := (f64add_f64sub_near p q hp hq).1
    refine ⟨t, ?_, by linarith⟩
    show f64add s.Memory b.Memory = .fin t
    rw [hmem, ha, hb, ht]
  · intro p q ha hb hp hq
    obtain ⟨t, ht, hnear⟩ := (f64add_f64sub_near p q hp hq).1
    refine ⟨t, ?_, by linarith⟩
    show f64add s.MilliGPU b.MilliGPU = .fin t
    rw [hgpu, ha, hb, ht]
  · intro n
    rw [hlook]
    cases hb : b.ExtendDevices.lookup n with
    | none => rfl
    | some v =>
      obtain ⟨w, hw, _⟩ := hext n v hb
      simp [hw]
  · intro n hb
    rw [hlook, hb]
    rfl
  · intro n p q hb ha hexact hp
    rw [hlook, hb, ha]
    show some (f64add (f64sub (.fin p) (.fin q)) (.fin q)) = some (.fin p)
    rw [hexact, f64add_fin, sub_add_cancel, hp]

theorem gpuTask_lessEqual_fpgaNode : gpuTask.LessEqual fpgaNode = true := by
  have hl : fpgaNode.ExtendDevices.lookup "nvidia.com/gpu" = some (.fin 2) := rfl
  have hgt : F64.gt (.fin 1) (.fin 2) = false := by simp [F64.gt, F64.lt]
  have hext : lessEqualExtend gpuTask.ExtendDevices.entries fpgaNode.ExtendDevices = true := by
    show lessEqualExtend [⟨"nvidia.com/gpu", .fin 1⟩] fpgaNode.ExtendDevices = true
    simp [lessEqualExtend, hl, hgt]
  have h₁ : F64.lt gpuTask.MilliCPU fpgaNode.MilliCPU = true := by
    simp only [gpuTask, fpgaNode, F64.lt, decide_eq_true_eq]
    norm_num
  have h₂ : F64.lt gpuTask.Memory fpgaNode.Memory = true := by
    simp only [gpuTask, fpgaNode, F64.lt, decide_eq_true_eq]
    norm_num
  have h₃ : F64.lt gpuTask.MilliGPU fpgaNode.MilliGPU = true := by
    simp only [gpuTask, fpgaNode, F64.lt, decide_eq_true_eq]
    norm_num
  unfold Resource.LessEqual
  rw [hext, h₁, h₂, h₃]
  rfl

theorem fpgaNode_extend_cases (n : ResourceName) (w : F64)
    (hw : fpgaNode.ExtendDevices.lookup n = some w) : w = .fin 4 ∨ w = .fin 2 := by
  have hmem : (⟨n, w⟩ : Sigma fun _ : ResourceName => F64) ∈ fpgaNode.ExtendDevices.entries :=
    AList.mem_lookup_iff.mp hw
  have hentries : fpgaNode.ExtendDevices.entries =
      [⟨"example.com/fpga", .fin 4⟩, ⟨"nvidia.com/gpu", .fin 2⟩] := rfl
  rw [hentries] at hmem
  simp only [List.mem_cons, Sigma.mk.inj_iff, List.mem_singleton, List.not_mem_nil,
    or_false] at hmem
  rcases hmem with ⟨-, h⟩ | ⟨-, h⟩
  · exact Or.inl (eq_of_heq h)
  · exact Or.inr (eq_of_heq h)

/-- Witness for C8 amended: one GPU, 1000 millicores and 2 GiB taken from and given back to a
node with two GPUs and four FPGAs. -/
theorem sub_then_add_within_epsilon_witness :
    gpuTask.LessEqual fpgaNode = true ∧
      ∃ s, fpgaNode.Sub gpuTask = some s ∧
        (∃ t, (s.Add gpuTask).MilliCPU = .fin t ∧ |t - 4000| < 10) ∧
        (s.Add gpuTask).ExtendDevices.lookup "nvidia.com/gpu" = some (.fin 2) ∧
        (s.Add gpuTask).ExtendDevices.lookup "example.com/fpga" = some (.fin 4) := by
  obtain ⟨s, hs, hcpu, -, -, -, honly, hboth⟩ :=
    sub_then_add_within_epsilon fpgaNode gpuTask gpuTask_lessEqual_fpgaNode
  refine ⟨gpuTask_lessEqual_fpgaNode, s, hs, ?_, ?_, ?_⟩
  · exact hcpu 4000 1000 rfl rfl (by norm_num) (by norm_num)
  · refine hboth "nvidia.com/gpu" 2 1 rfl rfl ?_ ?_
    · have := f64sub_small_int 2 1 (by norm_num)
      norm_num at this ⊢
      exact this
    · exact_mod_cast ofRat_intCast 2 (by norm_num)
  · exact honly "example.com/fpga" rfl

/-- A value that is at least zero is `+Inf` or a non-negative finite value. -/
theorem zero_le_cases (x : F64) (hx : F64.fin 0 ≤ x) : x = .pinf ∨ ∃ p, x = .fin p ∧ 0 ≤ p := by
  rw [f64_le_def] at hx
  cases x with
  | fin p =>
    right
    refine ⟨p, rfl, ?_⟩
    simp only [F64.ge, F64.lt, F64.eq, Bool.or_eq_true, decide_eq_true_eq] at hx
    rcases hx with h | h
    · exact h.le
    · exact h.ge
  | pinf => exact Or.inl rfl
  | ninf => simp [F64.ge, F64.lt, F64.eq] at hx
  | nan => simp [F64.ge, F64.lt, F64.eq] at hx

/-- Adding a value that is at least zero to a finite double `y` gives `+Inf` or a finite
value that is at least `y`. -/
theorem add_nonneg_cases (x : F64) (q : ℚ) (hx : F64.fin 0 ≤ x) (hq₁ : roundF64 q = q)
    (hq₂ : |q| < 2 ^ 1024) :
    f64add x (.fin q) = .pinf ∨ ∃ t, f64add x (.fin q) = .fin t ∧ q ≤ t := by
  rcases zero_le_cases x hx with h | ⟨p, h, hp⟩
  · left
    rw [h]
    rfl
  · rw [h, f64add_fin]
    exact le_ofRat (p + q) q hq₁ hq₂ (by linarith)

/-- Adding a value that is at least zero to a finite double `y` and subtracting `y` again
passes the scalar test of `LessEqual`. -/
theorem scalar_guard_after_add (x y : F64) (e : ℚ) (hx : F64.fin 0 ≤ x)
    (hy : y.isFinite = true) (he : 0 < e) :
    y < f64add x y ∨ F64.abs (f64sub (f64add x y) y) < .fin e := by
  obtain ⟨q, rfl, hq₁, hq₂⟩ := (isFinite_iff y).mp hy
  rcases add_nonneg_cases x q hx hq₁ hq₂ with h | ⟨t, h, ht⟩
  · left
    rw [h]
    rfl
  · rw [h]
    rcases eq_or_lt_of_le ht with heq | hlt
    · right
      rw [← heq, f64sub_fin, sub_self, ofRat_zero]
      show F64.fin |0| < F64.fin e
      rw [f64_fin_lt_fin, abs_zero]
      exact he
    · left
      rw [f64_fin_lt_fin]
      exact hlt

/-- Adding a value that is at least zero to a finite double `y` gives a value that `y` does
not exceed. -/
theorem not_gt_after_add (x y : F64) (hx : F64.fin 0 ≤ x) (hy : y.isFinite = true) :
    F64.gt y (f64add x y) = false := by
  obtain ⟨q, rfl, hq₁, hq₂⟩ := (isFinite_iff y).mp hy
  rcases add_nonneg_cases x q hx hq₁ hq₂ with h | ⟨t, h, ht⟩
  · rw [h]
    rfl
  · rw [h]
    simp only [F64.gt, F64.lt, decide_eq_false_iff_not, not_lt]
    exact ht

theorem zero_le_zero_f64 : F64.fin 0 ≤ F64.fin 0 := by
  rw [f64_le_def]
  simp [F64.ge, F64.lt, F64.eq]

/-- C9, as stated, fails in three ways.  With a negative scalar in `a` the subtraction panics:
`{cpu -100}` cloned, plus the zero resource, is not at least the zero resource.  With an
infinite or NaN scalar in `b` it panics as well: the sum is not at least `b`, the difference
being NaN.  With non-negative scalars the rounding can exceed the epsilon: `16 + 2^57` is
rounded to `2^57`, so the round trip from `{cpu 16}` ends at `{cpu 0}`, `16` millicores
away. -/
theorem clone_add_sub_fails :
    ((cpuOnly (.fin (-100))).Clone.Add (cpuOnly (.fin 0))).Sub (cpuOnly (.fin 0)) = none ∧
      ((cpuOnly (.fin 0)).Clone.Add (cpuOnly .pinf)).Sub (cpuOnly .pinf) = none ∧
      ((cpuOnly (.fin 0)).Clone.Add (cpuOnly .nan)).Sub (cpuOnly .nan) = none ∧
      F64.ofRat 16 = .fin 16 ∧ F64.ofRat (2 ^ 57) = .fin (2 ^ 57) ∧
      ∃ s, ((cpuOnly (.fin 16)).Clone.Add (cpuOnly (.fin (2 ^ 57)))).Sub
          (cpuOnly (.fin (2 ^ 57))) = some s ∧
        s.MilliCPU = .fin 0 ∧ ¬ |(0 : ℚ) - 16| < 10 := by
  have hneg : F64.ofRat (-100) = .fin (-100) := by
    exact_mod_cast ofRat_intCast (-100) (by norm_num)
  have hadd : f64add (.fin 16) (.fin (2 ^ 57)) = .fin (2 ^ 57) := by
    rw [f64add_fin, add_comm]
    exact ofRat_tie_example
  have hsub : f64sub (.fin (2 ^ 57)) (.fin (2 ^ 57)) = .fin 0 := by
    rw [f64sub_fin, sub_self, ofRat_zero]
  refine ⟨?_, rfl, rfl, ofRat_sixteen, ofRat_two_pow_57, ?_⟩
  · have hfalse : (cpuOnly (.fin 0)).LessEqual
        ((cpuOnly (.fin (-100))).Clone.Add (cpuOnly (.fin 0))) = false := by
      have hcpu : ((cpuOnly (.fin (-100))).Clone.Add (cpuOnly (.fin 0))).MilliCPU =
          .fin (-100) := by
        show f64add (.fin (-100)) (.fin 0) = .fin (-100)
        rw [f64add_fin, add_zero, hneg]
      have hd : f64sub (.fin (-100)) (.fin 0) = .fin (-100) := by
        rw [f64sub_fin, sub_zero, hneg]
      cases hle : (cpuOnly (.fin 0)).LessEqual
          ((cpuOnly (.fin (-100))).Clone.Add (cpuOnly (.fin 0))) with
      | false => rfl
      | true =>
        have h := (lessEqual_scalars _ _ hle).1
        rw [hcpu] at h
        have h0 : (cpuOnly (.fin 0)).MilliCPU = .fin 0 := rfl
        rw [h0, hd] at h
        rcases h with h | h
        · rw [f64_fin_lt_fin] at h
          norm_num at h
        · have h' : F64.fin |(-100 : ℚ)| < F64.fin 10 := h
          rw [f64_fin_lt_fin] at h'
          norm_num at h'
    exact ((sub_eq_none_iff _ _)).mpr hfalse
  · have hle : (cpuOnly (.fin (2 ^ 57))).LessEqual
        ((cpuOnly (.fin 16)).Clone.Add (cpuOnly (.fin (2 ^ 57)))) = true := by
      rw [lessEqual_iff]
      refine ⟨?_, ?_, ?_, ?_⟩
      · intro n v hv
        simp [cpuOnly] at hv
      · right
        show F64.abs (f64sub (f64add (.fin 16) (.fin (2 ^ 57))) (.fin (2 ^ 57))) < minMilliCPU
        rw [hadd, hsub]
        exact abs_zero_lt_min.1
      · right
        show F64.abs (f64sub (f64add (.fin 0) (.fin 0)) (.fin 0)) < minMemory
        rw [f64add_fin, add_zero, ofRat_zero, f64sub_zero_zero]
        exact abs_zero_lt_min.2.1
      · right
        show F64.abs (f64sub (f64add (.fin 0) (.fin 0)) (.fin 0)) < minMilliGPU
        rw [f64add_fin, add_zero, ofRat_zero, f64sub_zero_zero]
        exact abs_zero_lt_min.2.2
    obtain ⟨s, hs, hcpu, -, -, -⟩ := sub_spec _ _ hle
    have hs0 : s.MilliCPU = .fin 0 := by
      rw [hcpu]
      show f64sub (f64add (.fin 16) (.fin (2 ^ 57))) (.fin (2 ^ 57)) = .fin 0
      rw [hadd, hsub]
    refine ⟨s, hs, hs0, ?_⟩
    norm_num

/-- C9, amended. For every `a` whose scalars and extended entries are at least zero (so none
is NaN) and every `b` whose scalars and extended entries are finite, `a.Clone().Add(b).Sub(b)`
does not fail.  The result has each scalar of `a` within that dimension's epsilon when the
scalars of `a` and `b` are finite with magnitude at most `2 ^ 53`.  Its extended names are
those of `a` and of `b`; a name `b` does not have keeps the value of `a`, and a name of `b`
whose addition was exact gets back the value of `a` (zero when `a` does not have the
name). -/
theorem clone_add_sub_round_trip (a b : Resource)
    (hcpu : F64.fin 0 ≤ a.MilliCPU) (hmem : F64.fin 0 ≤ a.Memory)
    (hgpu : F64.fin 0 ≤ a.MilliGPU)
    (hext : ∀ n w, a.ExtendDevices.lookup n = some w → F64.fin 0 ≤ w)
    (hbcpu : b.MilliCPU.isFinite = true) (hbmem : b.Memory.isFinite = true)
    (hbgpu : b.MilliGPU.isFinite = true)
    (hbext : ∀ n v, b.ExtendDevices.lookup n = some v → v.isFinite = true) :
    ∃ s, (a.Clone.Add b).Sub b = some s ∧
      (∀ p q, a.MilliCPU = .fin p → b.MilliCPU = .fin q → |p| ≤ 2 ^ 53 → |q| ≤ 2 ^ 53 →
        ∃ t, s.MilliCPU = .fin t ∧ |t - p| < 10) ∧
      (∀ p q, a.Memory = .fin p → b.Memory = .fin q → |p| ≤ 2 ^ 53 → |q| ≤ 2 ^ 53 →
        ∃ t, s.Memory = .fin t ∧ |t - p| < 10 * 1024 * 1024) ∧
      (∀ p q, a.MilliGPU = .fin p → b.MilliGPU = .fin q → |p| ≤ 2 ^ 53 → |q| ≤ 2 ^ 53 →
        ∃ t, s.MilliGPU = .fin t ∧ |t - p| < 10) ∧
      (∀ n, (s.ExtendDevices.lookup n).isSome =
        ((a.ExtendDevices.lookup n).isSome || (b.ExtendDevices.lookup n).isSome)) ∧
      (∀ n, b.ExtendDevices.lookup n = none →
        s.ExtendDevices.lookup n = a.ExtendDevices.lookup n) ∧
      ∀ n p q, b.ExtendDevices.lookup n = some (.fin q) →
        (a.ExtendDevices.lookup n).getD (.fin 0) = .fin p →
        f64add (.fin p) (.fin q) = .fin (p + q) → F64.ofRat p = .fin p →
        s.ExtendDevices.lookup n = some (.fin p) := by
  have hsum : ∀ n, (a.Clone.Add b).ExtendDevices.lookup n =
      (b.ExtendDevices.lookup n).elim (a.ExtendDevices.lookup n) fun v =>
        some (f64add ((a.ExtendDevices.lookup n).getD (.fin 0)) v) := by
    intro n
    rw [add_lookup, clone_lookup]
  have hle : b.LessEqual (a.Clone.Add b) = true := by
    rw [lessEqual_iff]
    refine ⟨?_, ?_, ?_, ?_⟩
    · intro n v hv
      refine ⟨f64add ((a.ExtendDevices.lookup n).getD (.fin 0)) v, ?_, ?_⟩
      · rw [hsum, hv]; rfl
      · have h0 : F64.fin 0 ≤ (a.ExtendDevices.lookup n).getD (.fin 0) := by
          cases ha : a.ExtendDevices.lookup n with
          | none => exact zero_le_zero_f64
          | some w => exact hext n w ha
        exact not_gt_after_add _ v h0 (hbext n v hv)
    · exact scalar_guard_after_add a.MilliCPU b.MilliCPU 10 hcpu hbcpu (by norm_num)
    · exact scalar_guard_after_add a.Memory b.Memory (10 * 1024 * 1024) hmem hbmem
        (by norm_num)
    · exact scalar_guard_after_add a.MilliGPU b.MilliGPU 10 hgpu hbgpu (by norm_num)
  obtain ⟨s, hs, hscpu, hsmem, hsgpu, hsl⟩ := sub_spec (a.Clone.Add b) b hle
  have hlook : ∀ n, s.ExtendDevices.lookup n =
      (b.ExtendDevices.lookup n).elim (a.ExtendDevices.lookup n) fun v =>
        some (f64sub (f64add ((a.ExtendDevices.lookup n).getD (.fin 0)) v) v) := by
    intro n
    rw [hsl, hsum]
    cases b.ExtendDevices.lookup n <;> rfl
  refine ⟨s, hs, ?_, ?_, ?_, ?_, ?_, ?_⟩
  · intro p q ha hb hp hq
    obtain ⟨t, ht, hnear⟩ := (f64add_f64sub_near p q hp hq).2
    refine ⟨t, ?_, by linarith⟩
    rw [hscpu]
    show f64sub (f64add a.MilliCPU b.MilliCPU) b.MilliCPU = .fin t
    rw [ha, hb, ht]
  · intro p q ha hb hp hq
    obtain ⟨t, ht, hnear⟩ := (f64add_f64sub_near p q hp hq).2
    refine ⟨t, ?_, by linarith⟩
    rw [hsmem]
    show f64sub (f64add a.Memory b.Memory) b.Memory = .fin t
    rw [ha, hb, ht]
  · intro p q ha hb hp hq
    obtain ⟨t, ht, hnear⟩ := (f64add_f64sub_near p q hp hq).2
    refine ⟨t, ?_, by linarith⟩
    rw [hsgpu]
    show f64sub (f64add a.MilliGPU b.MilliGPU) b.MilliGPU = .fin t
    rw [ha, hb, ht]
  · intro n
    rw [hlook]
    cases b.ExtendDevices.lookup n <;> simp
  · intro n hb
    rw [hlook, hb]
    rfl
  · intro n p q hb ha hexact hp
    rw [hlook, hb]
    show some (f64sub (f64add ((a.ExtendDevices.lookup n).getD (.fin 0)) (.fin q)) (.fin q)) = _
    rw [ha, hexact, f64sub_fin, add_sub_cancel_right, hp]

theorem isFinite_intCast (n : ℤ) (hn : |n| < 2 ^ 53) : (F64.fin n).isFinite = true := by
  show decide (F64.ofRat n = .fin n) = true
  rw [decide_eq_true_eq]
  exact ofRat_intCast n hn

theorem fpgaNode_extend_nonneg :
    ∀ n w, fpgaNode.ExtendDevices.lookup n = some w → F64.fin 0 ≤ w := by
  intro n w hw
  rcases fpgaNode_extend_cases n w hw with h | h <;> rw [h, f64_le_def] <;>
    simp [F64.ge, F64.lt, F64.eq]

/-- Witness for C9 amended: the one-GPU task added to and taken from a clone of the node with
two GPUs and four FPGAs. -/
theorem clone_add_sub_round_trip_witness :
    ∃ s, (fpgaNode.Clone.Add gpuTask).Sub gpuTask = some s ∧
      (∃ t, s.MilliCPU = .fin t ∧ |t - 4000| < 10) ∧
      s.ExtendDevices.lookup "nvidia.com/gpu" = some (.fin 2) ∧
      s.ExtendDevices.lookup "example.com/fpga" = some (.fin 4) := by
  have htask : ∀ n v, gpuTask.ExtendDevices.lookup n = some v → v.isFinite = true := by
    intro n v hv
    have hmem : (⟨n, v⟩ : Sigma fun _ : ResourceName => F64) ∈ gpuTask.ExtendDevices.entries :=
      AList.mem_lookup_iff.mp hv
    have hentries : gpuTask.ExtendDevices.entries = [⟨"nvidia.com/gpu", .fin 1⟩] := rfl
    rw [hentries] at hmem
    simp only [List.mem_singleton, Sigma.mk.inj_iff] at hmem
    rw [eq_of_heq hmem.2]
    exact_mod_cast isFinite_intCast 1 (by norm_num)
  have hpos : ∀ q : ℚ, 0 ≤ q → F64.fin 0 ≤ F64.fin q := by
    intro q hq
    rw [f64_le_def]
    simp only [F64.ge, F64.lt, F64.eq, Bool.or_eq_true, decide_eq_true_eq]
    rcases eq_or_lt_of_le hq with h | h
    · exact Or.inr h.symm
    · exact Or.inl h
  obtain ⟨s, hs, hcpu, -, -, -, honly, hboth⟩ :=
    clone_add_sub_round_trip fpgaNode gpuTask (hpos _ (by norm_num)) (hpos _ (by norm_num))
      (hpos _ (by norm_num)) fpgaNode_extend_nonneg
      (by exact_mod_cast isFinite_intCast 1000 (by norm_num))
      (by
        have := isFinite_intCast (2 * 1024 ^ 3) (by norm_num)
        norm_num [gpuTask] at this ⊢
        exact this)
      (by exact_mod_cast isFinite_intCast 1000 (by norm_num))
      htask
  refine ⟨s, hs, hcpu 4000 1000 rfl rfl (by norm_num) (by norm_num), ?_, ?_⟩
  · refine hboth "nvidia.com/gpu" 2 1 rfl rfl ?_ ?_
    · have := f64add_small_int 2 1 (by norm_num)
      norm_num at this ⊢
      exact this
    · exact_mod_cast ofRat_intCast 2 (by norm_num)
  · exact honly "example.com/fpga" rfl

/-- C10, as stated, fails: both resources have non-negative components, `{cpu 5}` is
`LessEqual` to `{cpu 0}` because the difference is below the epsilon, and the subtraction
succeeds with `-5` millicores. -/
theorem sub_goes_below_zero :
    F64.fin 0 ≤ (cpuOnly (.fin 0)).MilliCPU ∧ F64.fin 0 ≤ (cpuOnly (.fin 5)).MilliCPU ∧
      ∃ s, (cpuOnly (.fin 0)).Sub (cpuOnly (.fin 5)) = some s ∧ s.MilliCPU = .fin (-5) ∧
        s.MilliCPU < F64.fin 0 := by
  have hd : f64sub (.fin 0) (.fin 5) = .fin (-5) := by
    have := f64sub_small_int 0 5 (by norm_num)
    norm_num at this ⊢
    exact this
  have hle : (cpuOnly (.fin 5)).LessEqual (cpuOnly (.fin 0)) = true := by
    refine lessEqual_cpuOnly _ _ (Or.inr ?_)
    rw [hd]
    show F64.fin |(-5 : ℚ)| < F64.fin 10
    rw [f64_fin_lt_fin]
    norm_num
  obtain ⟨s, hs, hcpu, -, -, -⟩ := sub_spec _ _ hle
  have hs5 : s.MilliCPU = .fin (-5) := by
    rw [hcpu]
    exact hd
  refine ⟨zero_le_zero_f64, ?_, s, hs, hs5, ?_⟩
  · show F64.fin 0 ≤ F64.fin 5
    rw [f64_le_def]
    simp [F64.ge, F64.lt]
  · rw [hs5, f64_fin_lt_fin]
    norm_num

/-- A scalar that passes the test of `LessEqual` leaves a difference above minus epsilon. -/
theorem scalar_above_neg_eps (x y : F64) (e : ℚ) (he : 0 < e)
    (h : y < x ∨ F64.abs (f64sub x y) < .fin e) : F64.fin (-e) < f64sub x y := by
  rcases h with h | h
  · rw [f64_lt_def] at h
    cases x <;> cases y <;> simp only [F64.lt, Bool.false_eq_true, decide_eq_true_eq] at h
    · rename_i p q
      rw [f64sub_fin]
      rcases ofRat_nonneg (p - q) (by linarith) with h' | ⟨t, h', ht⟩
      · rw [h']; rfl
      · rw [h', f64_fin_lt_fin]
        linarith
    · rfl
    · rfl
    · rfl
  · rw [f64_lt_def] at h
    cases hd : f64sub x y with
    | fin t =>
      rw [hd] at h
      simp only [F64.abs, F64.lt, decide_eq_true_eq] at h
      rw [f64_fin_lt_fin]
      exact (abs_lt.mp h).1
    | pinf => rfl
    | ninf => rw [hd] at h; simp [F64.abs, F64.lt] at h
    | nan => rw [hd] at h; simp [F64.abs, F64.lt] at h

/-- Subtracting a value from one it does not exceed gives NaN (when one of the two is NaN or
both are the same infinity) or a value that is at least zero. -/
theorem f64sub_of_not_gt (w v : F64) (h : F64.gt v w = false) :
    f64sub w v = .nan ∨ F64.fin 0 ≤ f64sub w v := by
  cases w <;> cases v <;>
    simp only [F64.gt, F64.lt, decide_eq_false_iff_not, not_lt, Bool.true_eq_false] at h <;>
    first
      | exact Or.inl rfl
      | exact Or.inr rfl
      | skip
  rename_i p q
  right
  rw [f64sub_fin]
  rcases ofRat_nonneg (p - q) (by linarith) with h' | ⟨t, h', ht⟩
  · rw [h']; rfl
  · rw [h', f64_le_def]
    simp only [F64.ge, F64.lt, F64.eq, Bool.or_eq_true, decide_eq_true_eq]
    rcases eq_or_lt_of_le ht with h0 | h0
    · exact Or.inr h0.symm
    · exact Or.inl h0

/-- The lower bounds on the result of a successful `Sub`. -/
theorem sub_lower_bounds_of_some (r rr s : Resource) (hs : r.Sub rr = some s) :
    (s.MilliCPU = f64sub r.MilliCPU rr.MilliCPU ∧ s.Memory = f64sub r.Memory rr.Memory ∧
        s.MilliGPU = f64sub r.MilliGPU rr.MilliGPU) ∧
      F64.fin (-10) < s.MilliCPU ∧ F64.fin (-(10 * 1024 * 1024)) < s.Memory ∧
      F64.fin (-10) < s.MilliGPU ∧
      (∀ n v, rr.ExtendDevices.lookup n = some v →
        ∃ w, r.ExtendDevices.lookup n = some w ∧
          s.ExtendDevices.lookup n = some (f64sub w v) ∧
          (f64sub w v = .nan ∨ F64.fin 0 ≤ f64sub w v) ∧
          (w.isFinite = true → v.isFinite = true → F64.fin 0 ≤ f64sub w v)) ∧
      ∀ n, rr.ExtendDevices.lookup n = none →
        s.ExtendDevices.lookup n = r.ExtendDevices.lookup n := by
  have hle : rr.LessEqual r = true := lessEqual_of_sub_eq_some r rr s hs
  obtain ⟨s', hs', hcpu, hmem, hgpu, hsl⟩ := sub_spec r rr hle
  have hss : s' = s := by
    rw [hs'] at hs
    exact Option.some.inj hs
  subst hss
  obtain ⟨hext, h₁, h₂, h₃⟩ := (lessEqual_iff rr r).mp hle
  refine ⟨⟨hcpu, hmem, hgpu⟩, ?_, ?_, ?_, ?_, ?_⟩
  · rw [hcpu]
    exact scalar_above_neg_eps _ _ 10 (by norm_num) h₁
  · rw [hmem]
    exact scalar_above_neg_eps _ _ (10 * 1024 * 1024) (by norm_num) h₂
  · rw [hgpu]
    exact scalar_above_neg_eps _ _ 10 (by norm_num) h₃
  · intro n v hv
    obtain ⟨w, hw, hvw⟩ := hext n v hv
    refine ⟨w, hw, ?_, f64sub_of_not_gt w v hvw, ?_⟩
    · rw [hsl, hv, hw]
      rfl
    · intro hwf hvf
      rcases f64sub_of_not_gt w v hvw with h | h
      · obtain ⟨p, rfl, -, -⟩ := (isFinite_iff w).mp hwf
        obtain ⟨q, rfl, -, -⟩ := (isFinite_iff v).mp hvf
        rw [f64sub_fin] at h
        exact absurd h (ofRat_ne_nan _)
      · exact h
  · intro n hn
    rw [hsl, hn]
    rfl

/-- A value that is NaN or at least zero is not below zero. -/
theorem not_lt_zero_of_nan_or_nonneg (x : F64) (h : x = .nan ∨ F64.fin 0 ≤ x) :
    ¬ x < F64.fin 0 := by
  rcases h with h | h
  · rw [h]
    exact fun h' => absurd h' (by simp [f64_lt_def, F64.lt])
  · rcases zero_le_cases x h with h' | ⟨p, h', hp⟩
    · rw [h']
      exact fun h'' => absurd h'' (by simp [f64_lt_def, F64.lt])
    · rw [h', f64_fin_lt_fin]
      exact not_lt.mpr hp

/-- C10, amended. Whenever `r.Sub(rr)` succeeds, each scalar of the result is greater than
minus its epsilon: a scalar can fall below zero, by less than the epsilon.  Every extended
entry of the result that `rr` names is the entry of `r` minus that of `rr` and is NaN or at
least zero (at least zero when both entries are finite); every other extended entry is the
entry of `r`, whatever its sign.  A subtraction that would take a scalar to minus epsilon or
lower, or an extended entry below zero, fails. -/
theorem sub_result_lower_bounds (r rr : Resource) :
    (∀ s, r.Sub rr = some s →
      F64.fin (-10) < s.MilliCPU ∧ F64.fin (-(10 * 1024 * 1024)) < s.Memory ∧
        F64.fin (-10) < s.MilliGPU ∧
        (∀ n v, rr.ExtendDevices.lookup n = some v →
          ∃ w, r.ExtendDevices.lookup n = some w ∧
            s.ExtendDevices.lookup n = some (f64sub w v) ∧
            (f64sub w v = .nan ∨ F64.fin 0 ≤ f64sub w v) ∧
            (w.isFinite = true → v.isFinite = true → F64.fin 0 ≤ f64sub w v)) ∧
        ∀ n, rr.ExtendDevices.lookup n = none →
          s.ExtendDevices.lookup n = r.ExtendDevices.lookup n) ∧
      (¬ F64.fin (-10) < f64sub r.MilliCPU rr.MilliCPU → r.Sub rr = none) ∧
      (¬ F64.fin (-(10 * 1024 * 1024)) < f64sub r.Memory rr.Memory → r.Sub rr = none) ∧
      (¬ F64.fin (-10) < f64sub r.MilliGPU rr.MilliGPU → r.Sub rr = none) ∧
      ∀ n v w, rr.ExtendDevices.lookup n = some v → r.ExtendDevices.lookup n = some w →
        f64sub w v < F64.fin 0 → r.Sub rr = none := by
  refine ⟨fun s hs => (sub_lower_bounds_of_some r rr s hs).2, ?_, ?_, ?_, ?_⟩
  · intro h
    cases hs : r.Sub rr with
    | none => rfl
    | some s =>
      obtain ⟨⟨e, -, -⟩, hb, -⟩ := sub_lower_bounds_of_some r rr s hs
      rw [e] at hb
      exact absurd hb h
  · intro h
    cases hs : r.Sub rr with
    | none => rfl
    | some s =>
      obtain ⟨⟨-, e, -⟩, -, hb, -⟩ := sub_lower_bounds_of_some r rr s hs
      rw [e] at hb
      exact absurd hb h
  · intro h
    cases hs : r.Sub rr with
    | none => rfl
    | some s =>
      obtain ⟨⟨-, -, e⟩, -, -, hb, -⟩ := sub_lower_bounds_of_some r rr s hs
      rw [e] at hb
      exact absurd hb h
  · intro n v w hv hw h
    cases hs : r.Sub rr with
    | none => rfl
    | some s =>
      obtain ⟨-, -, -, -, hnamed, -⟩ := sub_lower_bounds_of_some r rr s hs
      obtain ⟨w', hw', -, hsign, -⟩ := hnamed n v hv
      rw [hw] at hw'
      have hww : w = w' := Option.some.inj hw'
      subst hww
      exact absurd h (not_lt_zero_of_nan_or_nonneg _ hsign)

/-- Witness for C10 amended: the one-GPU task taken from the node with two GPUs and four
FPGAs leaves one GPU, and the four FPGAs the task does not name; taking two GPUs from the
one the task has fails. -/
theorem sub_result_lower_bounds_witness :
    (∃ s, fpgaNode.Sub gpuTask = some s ∧ F64.fin (-10) < s.MilliCPU ∧
      s.ExtendDevices.lookup "nvidia.com/gpu" = some (f64sub (.fin 2) (.fin 1)) ∧
      F64.fin 0 ≤ f64sub (.fin 2) (.fin 1) ∧
      s.ExtendDevices.lookup "example.com/fpga" = some (.fin 4)) ∧
      gpuTask.Sub fpgaNode = none := by
  constructor
  · obtain ⟨s, hs, -⟩ := sub_spec fpgaNode gpuTask gpuTask_lessEqual_fpgaNode
    obtain ⟨hcpu, -, -, hnamed, hother⟩ := (sub_result_lower_bounds fpgaNode gpuTask).1 s hs
    obtain ⟨w, hw, hsw, -, hfin⟩ := hnamed "nvidia.com/gpu" (.fin 1) rfl
    have hw2 : w = .fin 2 := by
      have hl : fpgaNode.ExtendDevices.lookup "nvidia.com/gpu" = some (.fin 2) := rfl
      rw [hl] at hw
      exact (Option.some.inj hw).symm
    subst hw2
    refine ⟨s, hs, hcpu, hsw, ?_, hother "example.com/fpga" rfl⟩
    exact hfin (by exact_mod_cast isFinite_intCast 2 (by norm_num))
      (by exact_mod_cast isFinite_intCast 1 (by norm_num))
  · refine (sub_result_lower_bounds gpuTask fpgaNode).2.2.2.2 "nvidia.com/gpu" (.fin 2)
      (.fin 1) rfl rfl ?_
    have h := f64sub_small_int 1 2 (by norm_num)
    norm_num at h
    rw [h, f64_fin_lt_fin]
    norm_num

/-- C11, as stated, fails: `{fpga 1}` names a dimension the empty receiver does not have and
every scalar test passes, yet the subtraction panics instead of leaving a negative entry. -/
theorem sub_unseen_name_panics :
    (cpuOnly (.fin 0)).ExtendDevices.lookup "example.com/fpga" = none ∧
      (extendOnly "example.com/fpga" (.fin 1)).ExtendDevices.lookup "example.com/fpga" =
        some (.fin 1) ∧
      ((extendOnly "example.com/fpga" (.fin 1)).MilliCPU < (cpuOnly (.fin 0)).MilliCPU ∨
        F64.abs (f64sub (cpuOnly (.fin 0)).MilliCPU
          (extendOnly "example.com/fpga" (.fin 1)).MilliCPU) < minMilliCPU) ∧
      (cpuOnly (.fin 0)).Sub (extendOnly "example.com/fpga" (.fin 1)) = none := by
  refine ⟨rfl, rfl, Or.inr ?_, ?_⟩
  · show F64.abs (f64sub (.fin 0) (.fin 0)) < minMilliCPU
    rw [f64sub_zero_zero]
    exact abs_zero_lt_min.1
  · rw [sub_eq_none_iff]
    cases hle : (extendOnly "example.com/fpga" (.fin 1)).LessEqual (cpuOnly (.fin 0)) with
    | false => rfl
    | true =>
      obtain ⟨w, hw, -⟩ := ((lessEqual_iff _ _).mp hle).1 "example.com/fpga" (.fin 1) rfl
      have hnone : (cpuOnly (.fin 0)).ExtendDevices.lookup "example.com/fpga" = none := rfl
      rw [hnone] at hw
      exact absurd hw (by simp)

/-- C11, amended. When `rr` has an extended entry whose name is absent from the extended map
of `r`, `rr.LessEqual(r)` is false and `r.Sub(rr)` fails (panics), whatever the other
dimensions are: the receiver never gets a negative entry for the name. -/
theorem sub_unseen_name_fails (r rr : Resource) (n : ResourceName) (v : F64)
    (hrr : rr.ExtendDevices.lookup n = some v) (hr : r.ExtendDevices.lookup n = none) :
    rr.LessEqual r = false ∧ r.Sub rr = none := by
  have hfalse : rr.LessEqual r = false := by
    cases hle : rr.LessEqual r with
    | false => rfl
    | true =>
      obtain ⟨w, hw, -⟩ := ((lessEqual_iff rr r).mp hle).1 n v hrr
      rw [hr] at hw
      exact absurd hw (by simp)
  exact ⟨hfalse, (sub_eq_none_iff r rr).mpr hfalse⟩

/-- Witness for C11 amended: a task asking for one GPU against a resource without extended
entries. -/
theorem sub_unseen_name_fails_witness :
    gpuTask.LessEqual scenario1Total = false ∧ scenario1Total.Sub gpuTask = none :=
  sub_unseen_name_fails scenario1Total gpuTask "nvidia.com/gpu" (.fin 1) rfl rfl

/-- C12. `Less` is irreflexive: `r.Less(r)` is false for every resource, whatever its scalars
and its extended map. -/
theorem less_irreflexive (r : Resource) : r.Less r = false := by
  simp [Resource.Less, f64_lt_irrefl]

/-- The scalar test of `LessEqual` with threshold `5 * 2 ^ e`, in exact terms: the receiver
is smaller, or both values are finite and their exact distance is below the threshold minus
half a unit in the last place of the threshold. -/
theorem scalar_test_iff (e : ℤ) (he : -1000 ≤ e) (he' : e ≤ 1000) (x y : F64) :
    (x < y ∨ F64.abs (f64sub y x) < .fin (5 * 2 ^ e)) ↔
      scalarWithin x y (5 * 2 ^ e - 2 ^ (e - 51)) := by
  unfold scalarWithin
  constructor
  · rintro (h | h)
    · exact Or.inl h
    · right
      rw [f64_lt_def] at h
      cases x <;> cases y
      all_goals try (exfalso; simp [f64sub, F64.abs, F64.lt] at h; done)
      rename_i p q
      rw [f64sub_fin] at h
      exact ⟨p, q, rfl, rfl, (abs_ofRat_lt_five_iff e he he' (q - p)).mp h⟩
  · rintro (h | ⟨p, q, rfl, rfl, h⟩)
    · exact Or.inl h
    · right
      rw [f64_lt_def, f64sub_fin]
      exact (abs_ofRat_lt_five_iff e he he' (q - p)).mpr h

/-- What `LessEqual` decides, in exact terms. -/
theorem lessEqual_iff_exact (r rr : Resource) :
    r.LessEqual rr = true ↔
      LessEqualSpec (10 - 1 / 2 ^ 50) (10 * 1024 * 1024 - 1 / 2 ^ 30) (10 - 1 / 2 ^ 50) r rr := by
  have h₁ := scalar_test_iff 1 (by norm_num) (by norm_num)
  have h₂ := scalar_test_iff 21 (by norm_num) (by norm_num)
  have e₁ : (5 * 2 ^ (1 : ℤ) : ℚ) = 10 := by norm_num
  have e₂ : (5 * 2 ^ (21 : ℤ) : ℚ) = 10 * 1024 * 1024 := by norm_num
  have e₃ : (10 - 2 ^ ((1 : ℤ) - 51) : ℚ) = 10 - 1 / 2 ^ 50 := by
    rw [show ((1 : ℤ) - 51) = -50 by norm_num, zpow_neg]
    norm_num
  have e₄ : (10 * 1024 * 1024 - 2 ^ ((21 : ℤ) - 51) : ℚ) = 10 * 1024 * 1024 - 1 / 2 ^ 30 := by
    rw [show ((21 : ℤ) - 51) = -30 by norm_num, zpow_neg]
    norm_num
  rw [e₁, e₃] at h₁
  rw [e₂, e₄] at h₂
  rw [lessEqual_iff]
  unfold LessEqualSpec minMilliCPU minMemory minMilliGPU
  rw [h₁, h₂, h₁]
  constructor
  · rintro ⟨hext, hs⟩
    refine ⟨?_, hs⟩
    intro n v hv
    obtain ⟨w, hw, hvw⟩ := hext n v hv
    refine ⟨w, hw, ?_⟩
    show ¬ F64.lt w v = true
    rw [Bool.not_eq_true]
    exact hvw
  · rintro ⟨hext, hs⟩
    refine ⟨?_, hs⟩
    intro n v hv
    obtain ⟨w, hw, hvw⟩ := hext n v hv
    refine ⟨w, hw, ?_⟩
    have hvw' : ¬ F64.lt w v = true := hvw
    rw [Bool.not_eq_true] at hvw'
    exact hvw'

theorem roundF64_ten_minus : roundF64 (10 - 1 / 2 ^ 60) = 10 := by
  have hlog : Int.log 2 |(10 - 1 / 2 ^ 60 : ℚ)| = 3 := by
    rw [abs_of_pos (by norm_num)]
    exact int_log_two_eq _ 3 (by norm_num) (by norm_num)
  have hulp : ulpExp (10 - 1 / 2 ^ 60) = -49 := by
    unfold ulpExp
    rw [hlog]
    norm_num
  have hk : (10 - 1 / 2 ^ 60 : ℚ) / 2 ^ (-49 : ℤ) = 10 * 2 ^ 49 - 1 / 2 ^ 11 := by
    rw [zpow_neg]
    norm_num
  have hfloor : ⌊(10 * 2 ^ 49 - 1 / 2 ^ 11 : ℚ)⌋ = 10 * 2 ^ 49 - 1 := by
    rw [Int.floor_eq_iff]
    norm_num
  have hround : roundHalfEven (10 * 2 ^ 49 - 1 / 2 ^ 11) = 10 * 2 ^ 49 := by
    unfold roundHalfEven
    simp only [hfloor]
    norm_num
  unfold roundF64
  rw [hulp, hk, hround, zpow_neg]
  norm_num

theorem ofRat_two_pow_neg_60 : F64.ofRat (1 / 2 ^ 60) = .fin (1 / 2 ^ 60) := by
  apply ofRat_of_double
  · have := roundF64_mul_zpow 1 (-60) (by norm_num) (by norm_num)
    rw [zpow_neg] at this
    norm_num at this ⊢
    exact this
  · rw [abs_of_pos (by norm_num)]
    norm_num

/-- C13, as stated, fails: with `r.MilliCPU = 10` and `rr.MilliCPU = 2^-60` (both doubles) the
distance `|rr - r| = 10 - 2^-60` is below the epsilon `10`, so the reference definition
holds; the code computes the difference in `float64`, where it is rounded to `-10`, and
`10 < 10` is false: `r.LessEqual(rr)` is false. -/
theorem lessEqual_stricter_than_worded :
    F64.ofRat 10 = .fin 10 ∧ F64.ofRat (1 / 2 ^ 60) = .fin (1 / 2 ^ 60) ∧
      f64sub (.fin (1 / 2 ^ 60)) (.fin 10) = .fin (-10) ∧
      (cpuOnly (.fin 10)).LessEqual (cpuOnly (.fin (1 / 2 ^ 60))) = false ∧
      LessEqualSpec 10 (10 * 1024 * 1024) 10 (cpuOnly (.fin 10))
        (cpuOnly (.fin (1 / 2 ^ 60))) := by
  have hsub : f64sub (.fin (1 / 2 ^ 60)) (.fin 10) = .fin (-10) := by
    rw [f64sub_fin]
    have hr : roundF64 (1 / 2 ^ 60 - 10) = -10 := by
      have : (1 / 2 ^ 60 - 10 : ℚ) = -(10 - 1 / 2 ^ 60) := by ring
      rw [this, roundF64_neg, roundF64_ten_minus]
    unfold F64.ofRat
    rw [hr, if_pos (by norm_num)]
  refine ⟨by exact_mod_cast ofRat_intCast 10 (by norm_num), ofRat_two_pow_neg_60, hsub, ?_, ?_⟩
  · cases hle : (cpuOnly (.fin 10)).LessEqual (cpuOnly (.fin (1 / 2 ^ 60))) with
    | false => rfl
    | true =>
      have h := (lessEqual_scalars _ _ hle).1
      have h' : F64.fin 10 < F64.fin (1 / 2 ^ 60) ∨
          F64.abs (f64sub (.fin (1 / 2 ^ 60)) (.fin 10)) < F64.fin 10 := h
      rw [hsub] at h'
      rcases h' with h' | h'
      · rw [f64_fin_lt_fin] at h'
        norm_num at h'
      · have h'' : F64.fin |(-10 : ℚ)| < F64.fin 10 := h'
        rw [f64_fin_lt_fin] at h''
        norm_num at h''
  · refine ⟨?_, ?_, ?_, ?_⟩
    · intro n v hv
      simp [cpuOnly] at hv
    · right
      refine ⟨10, 1 / 2 ^ 60, rfl, rfl, ?_⟩
      rw [abs_lt]
      constructor <;> norm_num
    · right
      exact ⟨0, 0, rfl, rfl, by norm_num⟩
    · right
      exact ⟨0, 0, rfl, rfl, by norm_num⟩

/-- C13, amended. `r.LessEqual(rr)` is true exactly when every extended name of `r` is a key
of the map of `rr`, with a value of `r` not greater than that of `rr` (no tolerance, a
missing name failing), and for each of CPU, memory and GPU the scalar of `r` is smaller than
that of `rr`, or both are finite and their exact distance `|rr - r|` is below `10 - 2^-50`
(CPU and GPU) or `10 * 1024 * 1024 - 2^-30` (memory): the code compares the `float64`
difference with the epsilon, and the differences that round to the epsilon are excluded. -/
theorem lessEqual_refines_spec (r rr : Resource) :
    r.LessEqual rr = true ↔
      LessEqualSpec (10 - 1 / 2 ^ 50) (10 * 1024 * 1024 - 1 / 2 ^ 30) (10 - 1 / 2 ^ 50)
        r rr :=
  lessEqual_iff_exact r rr

/-- C14, as stated, fails: a present extended entry with the negative value `-1` is not
reported as zero. -/
theorem isZero_negative_entry :
    (extendOnly "example.com/fpga" (.fin (-1))).ExtendDevices.lookup "example.com/fpga" =
        some (.fin (-1)) ∧
      (extendOnly "example.com/fpga" (.fin (-1))).IsZero "example.com/fpga" = false := by
  refine ⟨rfl, ?_⟩
  have hl : (extendOnly "example.com/fpga" (.fin (-1))).ExtendDevices.lookup
      "example.com/fpga" = some (.fin (-1)) := rfl
  have h₁ : ("example.com/fpga" : ResourceName) ≠ ResourceCPU := by decide
  have h₂ : ("example.com/fpga" : ResourceName) ≠ ResourceMemory := by decide
  have h₃ : ("example.com/fpga" : ResourceName) ≠ GPUResourceName := by decide
  unfold Resource.IsZero
  rw [if_neg h₁, if_neg h₂, if_neg h₃, hl]
  simp [F64.eq]

theorem f64_eq_zero_iff (x : F64) : F64.eq x (.fin 0) = true ↔ x = .fin 0 := by
  cases x <;> simp [F64.eq]

/-- C14, amended. `IsZero` of CPU, memory and the GPU name is true exactly when the scalar is
below `10`, `10 * 1024 * 1024`, `10`.  For any other name it is true exactly when the name is
absent from the extended map or its stored value equals `0`: extended entries have no
threshold, and a present entry with a negative value is not zero. -/
theorem isZero_spec (r : Resource) :
    (r.IsZero ResourceCPU = true ↔ r.MilliCPU < .fin 10) ∧
      (r.IsZero ResourceMemory = true ↔ r.Memory < .fin (10 * 1024 * 1024)) ∧
      (r.IsZero GPUResourceName = true ↔ r.MilliGPU < .fin 10) ∧
      ∀ rn, rn ≠ ResourceCPU → rn ≠ ResourceMemory → rn ≠ GPUResourceName →
        (r.IsZero rn = true ↔
          r.ExtendDevices.lookup rn = none ∨ r.ExtendDevices.lookup rn = some (.fin 0)) := by
  have hmc : ResourceMemory ≠ ResourceCPU := by decide
  have hgc : GPUResourceName ≠ ResourceCPU := by decide
  have hgm : GPUResourceName ≠ ResourceMemory := by decide
  refine ⟨?_, ?_, ?_, ?_⟩
  · simp [Resource.IsZero, minMilliCPU, f64_lt_def]
  · simp [Resource.IsZero, hmc, minMemory, f64_lt_def]
  · simp [Resource.IsZero, hgc, hgm, minMilliGPU, f64_lt_def]
  · intro rn h₁ h₂ h₃
    unfold Resource.IsZero
    rw [if_neg h₁, if_neg h₂, if_neg h₃, f64_eq_zero_iff]
    cases r.ExtendDevices.lookup rn <;> simp

/-- Witness for C14 amended: on a node with two GPUs and four FPGAs an absent name is zero and
the FPGA entry is not. -/
theorem isZero_spec_witness :
    fpgaNode.IsZero "example.com/tpu" = true ∧ fpgaNode.IsZero "example.com/fpga" = false := by
  obtain ⟨-, -, -, hext⟩ := isZero_spec fpgaNode
  constructor
  · exact (hext "example.com/tpu" (by decide) (by decide) (by decide)).mpr (Or.inl rfl)
  · cases h : fpgaNode.IsZero "example.com/fpga" with
    | false => rfl
    | true =>
      have hl : fpgaNode.ExtendDevices.lookup "example.com/fpga" = some (.fin 4) := rfl
      rcases (hext "example.com/fpga" (by decide) (by decide) (by decide)).mp h with h0 | h0
      · rw [hl] at h0
        exact absurd h0 (by simp)
      · rw [hl] at h0
        have : (4 : ℚ) = 0 := F64.fin.inj (Option.some.inj h0)
        norm_num at this

/-- C15. `Get` panics exactly for a name that is none of `cpu`, `memory`, `nvidia.com/gpu` and
is absent from the extended map.  Otherwise it returns `MilliCPU`, `Memory` or `MilliGPU` for
the three canonical names (the scalar also for the GPU name) and the stored value for any
other name.  There are a resource and a name for which `IsZero` is true and `Get` panics. -/
theorem get_spec (r : Resource) :
    (∀ rn, r.Get rn = none ↔
        rn ≠ ResourceCPU ∧ rn ≠ ResourceMemory ∧ rn ≠ GPUResourceName ∧
          r.ExtendDevices.lookup rn = none) ∧
      r.Get ResourceCPU = some r.MilliCPU ∧
      r.Get ResourceMemory = some r.Memory ∧
      r.Get GPUResourceName = some r.MilliGPU ∧
      (∀ rn v, rn ≠ ResourceCPU → rn ≠ ResourceMemory → rn ≠ GPUResourceName →
        r.ExtendDevices.lookup rn = some v → r.Get rn = some v) ∧
      ∃ (r₀ : Resource) (n : ResourceName), r₀.IsZero n = true ∧ r₀.Get n = none := by
  have hmc : ResourceMemory ≠ ResourceCPU := by decide
  have hgc : GPUResourceName ≠ ResourceCPU := by decide
  have hgm : GPUResourceName ≠ ResourceMemory := by decide
  refine ⟨?_, ?_, ?_, ?_, ?_, ?_⟩
  · intro rn
    unfold Resource.Get
    by_cases h₁ : rn = ResourceCPU
    · simp [h₁]
    by_cases h₂ : rn = ResourceMemory
    · simp [h₂, hmc]
    by_cases h₃ : rn = GPUResourceName
    · simp [h₃, hgc, hgm]
    simp [h₁, h₂, h₃]
  · simp [Resource.Get]
  · simp [Resource.Get, hmc]
  · simp [Resource.Get, hgc, hgm]
  · intro rn v h₁ h₂ h₃ hv
    simp [Resource.Get, h₁, h₂, h₃, hv]
  · exact ⟨EmptyResource, "example.com/fpga", rfl, rfl⟩

/-- Witness for C15: on the node with two GPUs (2000 milli-GPU) `Get` of the GPU name is the
scalar, `Get` of the FPGA name the stored value, and `Get` of an absent name panics. -/
theorem get_spec_witness :
    fpgaNode.Get "nvidia.com/gpu" = some (.fin 2000) ∧
      fpgaNode.Get "example.com/fpga" = some (.fin 4) ∧
      fpgaNode.Get "example.com/tpu" = none := by
  obtain ⟨hnone, -, -, hgpu, hext, -⟩ := get_spec fpgaNode
  refine ⟨hgpu, ?_, ?_⟩
  · exact hext "example.com/fpga" (.fin 4) (by decide) (by decide) (by decide) rfl
  · exact (hnone "example.com/tpu").mpr ⟨by decide, by decide, by decide, rfl⟩

/-- C16. `IsEmpty` is true exactly when `MilliCPU < 10`, `Memory < 10 * 1024 * 1024` and
`MilliGPU < 10`; it does not depend on the extended map; and it is the conjunction of `IsZero`
for `cpu`, `memory` and `nvidia.com/gpu`. -/
theorem isEmpty_spec (r : Resource) :
    (r.IsEmpty = true ↔
        r.MilliCPU < .fin 10 ∧ r.Memory < .fin (10 * 1024 * 1024) ∧ r.MilliGPU < .fin 10) ∧
      (∀ m : ExtendMap,
        Resource.IsEmpty { MilliCPU := r.MilliCPU, Memory := r.Memory,
                           MilliGPU := r.MilliGPU, ExtendDevices := m } = r.IsEmpty) ∧
      r.IsEmpty =
        (r.IsZero ResourceCPU && r.IsZero ResourceMemory && r.IsZero GPUResourceName) := by
  have hmc : ResourceMemory ≠ ResourceCPU := by decide
  have hgc : GPUResourceName ≠ ResourceCPU := by decide
  have hgm : GPUResourceName ≠ ResourceMemory := by decide
  refine ⟨?_, ?_, ?_⟩
  · simp [Resource.IsEmpty, minMilliCPU, minMemory, minMilliGPU, and_assoc, f64_lt_def]
  · intro m
    rfl
  · simp [Resource.IsEmpty, Resource.IsZero, hmc, hgc, hgm]

/-- Witness for C16: Scenario 4, `{cpu 5, mem 0, gpu 0}` is empty; so is a resource with zero
scalars and a thousand FPGAs. -/
theorem isEmpty_spec_witness :
    (cpuOnly (.fin 5)).IsEmpty = true ∧
      (extendOnly "example.com/fpga" (.fin 1000)).IsEmpty = true := by
  constructor
  · refine (isEmpty_spec (cpuOnly (.fin 5))).1.mpr ⟨?_, ?_, ?_⟩ <;>
      simp only [cpuOnly, f64_fin_lt_fin] <;> norm_num
  · refine (isEmpty_spec (extendOnly "example.com/fpga" (.fin 1000))).1.mpr ⟨?_, ?_, ?_⟩ <;>
      simp only [extendOnly, f64_fin_lt_fin] <;> norm_num

/-! ## Lifecycle broadcast -/

theorem broadcast_eq_rangePlugins (H : PluginHolder) (ev : LifecycleEvent) :
    broadcast H ev = rangePlugins ev.hook H.entries := by
  cases ev <;> rfl

theorem rangePlugins_all_return (hook : SchedulerPlugin → Option Unit) :
    ∀ l : List (Sigma fun _ : ResourceName => SchedulerPlugin),
      (∀ e ∈ l, hook e.2 = some ()) →
      (rangePlugins hook l).invoked = l.keys ∧ (rangePlugins hook l).panicked = false
  | [], _ => ⟨rfl, rfl⟩
  | ⟨k, p⟩ :: rest, h => by
    have hp : hook p = some () := h ⟨k, p⟩ (List.mem_cons_self _ _)
    have ih := rangePlugins_all_return hook rest fun e he => h e (List.mem_cons_of_mem _ he)
    simp only [rangePlugins, hp, List.keys_cons]
    exact ⟨congrArg (List.cons k) ih.1, ih.2⟩

theorem rangePlugins_stops (hook : SchedulerPlugin → Option Unit)
    (k : ResourceName) (p : SchedulerPlugin)
    (post : List (Sigma fun _ : ResourceName => SchedulerPlugin)) (hp : hook p = none) :
    ∀ pre : List (Sigma fun _ : ResourceName => SchedulerPlugin),
      (∀ e ∈ pre, hook e.2 = some ()) →
      (rangePlugins hook (pre ++ ⟨k, p⟩ :: post)).invoked = pre.keys ++ [k] ∧
        (rangePlugins hook (pre ++ ⟨k, p⟩ :: post)).panicked = true
  | [], _ => by simp [rangePlugins, hp]
  | ⟨k', p'⟩ :: pre, h => by
    have hp' : hook p' = some () := h ⟨k', p'⟩ (List.mem_cons_self _ _)
    have ih := rangePlugins_stops hook k p post hp pre
      fun e he => h e (List.mem_cons_of_mem _ he)
    simp only [List.cons_append, rangePlugins, hp', List.keys_cons]
    exact ⟨congrArg (List.cons k') ih.1, ih.2⟩

/-- C17, as stated, fails: when `range` yields a plugin whose hook panics before the GPU
plugin, each of the five broadcasts ends in the panic after that single invocation and the
hook of the GPU plugin is never invoked. -/
theorem broadcast_not_isolated :
    broadcast panicFirstHolder (.addNode plainNode) =
        { invoked := ["bad"], panicked := true } ∧
      broadcast panicFirstHolder (.updateNode plainNode) =
        { invoked := ["bad"], panicked := true } ∧
      broadcast panicFirstHolder (.deleteNode plainNode) =
        { invoked := ["bad"], panicked := true } ∧
      broadcast panicFirstHolder (.addTask plainNode plainPod) =
        { invoked := ["bad"], panicked := true } ∧
      broadcast panicFirstHolder (.removeTask plainNode plainPod) =
        { invoked := ["bad"], panicked := true } ∧
      "gpu" ∈ panicFirstHolder.keys ∧
      "gpu" ∉ (broadcast panicFirstHolder (.addNode plainNode)).invoked :=
  ⟨rfl, rfl, rfl, rfl, rfl, by decide, by decide⟩

/-- C17, amended. For each of `OnAddNode`, `OnUpdateNode`, `OnDeleteNode`, `OnAddTask` and
`OnRemoveTask`: when no hook panics, the hook of every plugin in the registry is invoked
exactly once and the call returns.  When a hook panics the loop stops there and the panic
reaches the caller: the plugins visited before it and the panicking one have been invoked
once, the plugins after it not at all. -/
theorem broadcast_until_panic (H : PluginHolder) (ev : LifecycleEvent) :
    ((∀ e ∈ H.entries, ev.hook e.2 = some ()) →
        (broadcast H ev).panicked = false ∧
          ∀ k, (broadcast H ev).invoked.count k = if k ∈ H.keys then 1 else 0) ∧
      ∀ pre k p post, H.entries = pre ++ ⟨k, p⟩ :: post →
        (∀ e ∈ pre, ev.hook e.2 = some ()) → ev.hook p = none →
        (broadcast H ev).panicked = true ∧
          (broadcast H ev).invoked = pre.keys ++ [k] ∧
          (∀ k' ∈ pre.keys ++ [k], (broadcast H ev).invoked.count k' = 1) ∧
          ∀ e ∈ post, e.1 ∉ (broadcast H ev).invoked := by
  rw [broadcast_eq_rangePlugins]
  constructor
  · intro hall
    obtain ⟨hinv, hpan⟩ := rangePlugins_all_return ev.hook H.entries hall
    refine ⟨hpan, fun k => ?_⟩
    rw [hinv]
    by_cases hk : k ∈ H.keys
    · rw [if_pos hk]
      exact List.count_eq_one_of_mem H.keys_nodup hk
    · rw [if_neg hk]
      exact List.count_eq_zero_of_not_mem hk
  · intro pre k p post hsplit hpre hp
    have hnd : (pre ++ ⟨k, p⟩ :: post).keys.Nodup := by
      rw [← hsplit]
      exact H.keys_nodup
    have hkeys : (pre ++ ⟨k, p⟩ :: post).keys = (pre.keys ++ [k]) ++ post.keys := by
      simp [List.keys]
    rw [hkeys] at hnd
    obtain ⟨hinv, hpan⟩ := rangePlugins_stops ev.hook k p post hp pre hpre
    rw [hsplit]
    refine ⟨hpan, hinv, ?_, ?_⟩
    · intro k' hk'
      rw [hinv]
      exact List.count_eq_one_of_mem (List.Nodup.of_append_left hnd) hk'
    · intro e he hmem
      rw [hinv] at hmem
      have hdisj := (List.nodup_append.mp hnd).2.2
      exact hdisj hmem (List.mem_keys_of_mem he)

/-- Witness for C17 amended: with two plugins whose hooks return, both are invoked once; with
the panicking plugin visited first, only that one is. -/
theorem broadcast_until_panic_witness :
    ((broadcast gpuXHolder (.addNode plainNode)).panicked = false ∧
        (broadcast gpuXHolder (.addNode plainNode)).invoked.count "gpu" = 1 ∧
        (broadcast gpuXHolder (.addNode plainNode)).invoked.count "x" = 1) ∧
      (broadcast panicFirstHolder (.deleteNode plainNode)).panicked = true ∧
      "gpu" ∉ (broadcast panicFirstHolder (.deleteNode plainNode)).invoked := by
  constructor
  · have hall : ∀ e ∈ gpuXHolder.entries,
        (LifecycleEvent.addNode plainNode).hook e.2 = some () := by
      intro e he
      have hentries : gpuXHolder.entries = [⟨"x", xPlugin⟩, ⟨"gpu", gpuPlugin⟩] := rfl
      rw [hentries] at he
      simp only [List.mem_cons, List.mem_singleton, List.not_mem_nil, or_false] at he
      rcases he with rfl | rfl <;> rfl
    obtain ⟨hpan, hcount⟩ := (broadcast_until_panic gpuXHolder (.addNode plainNode)).1 hall
    refine ⟨hpan, ?_, ?_⟩
    · rw [hcount "gpu"]; decide
    · rw [hcount "x"]; decide
  · obtain ⟨hpan, -, -, hpost⟩ :=
      (broadcast_until_panic panicFirstHolder (.deleteNode plainNode)).2 [] "bad" panicPlugin
        [⟨"gpu", gpuPlugin⟩] rfl (by simp) rfl
    exact ⟨hpan, hpost ⟨"gpu", gpuPlugin⟩ (List.mem_singleton_self _)⟩

/-! ## The two orders on resource vectors -/

/-- The test `>=` of `Less` chains through a middle value that is not NaN. -/
theorem f64_not_ge_trans (v w x : F64) (hw : w ≠ .nan) (h₁ : F64.ge v w = false)
    (h₂ : F64.ge w x = false) : F64.ge v x = false := by
  cases v <;> cases w <;> cases x <;>
    simp only [F64.ge, F64.lt, F64.eq, Bool.or_eq_false_iff, decide_eq_false_iff_not,
      not_lt, Bool.or_self, Bool.or_false, Bool.or_true, Bool.true_eq_false,
      Bool.false_eq_true, ne_eq, not_true_eq_false, not_false_eq_true, and_self, and_true,
      true_and, false_and, and_false, reduceCtorEq] at hw h₁ h₂ ⊢
  rename_i p q t
  have hpq : p < q := lt_of_le_of_ne h₁.1 h₁.2
  have hqt : q < t := lt_of_le_of_ne h₂.1 h₂.2
  exact ⟨by linarith, by intro h; linarith⟩

/-- The test `>` of `LessEqual` chains through a middle value that is not NaN. -/
theorem f64_not_gt_trans (v w x : F64) (hw : w ≠ .nan) (h₁ : F64.gt v w = false)
    (h₂ : F64.gt w x = false) : F64.gt v x = false := by
  cases v <;> cases w <;> cases x <;>
    simp only [F64.gt, F64.lt, decide_eq_false_iff_not, not_lt, Bool.true_eq_false,
      Bool.false_eq_true, ne_eq, not_true_eq_false, not_false_eq_true, reduceCtorEq]
      at hw h₁ h₂ ⊢
  rename_i p q t
  linarith

theorem gpuTask_less_fpgaNode : gpuTask.Less fpgaNode = true := by
  have hl : fpgaNode.ExtendDevices.lookup "nvidia.com/gpu" = some (.fin 2) := rfl
  have hge : F64.ge (.fin 1) (.fin 2) = false := by simp [F64.ge, F64.lt, F64.eq]
  have hext : lessExtend gpuTask.ExtendDevices.entries fpgaNode.ExtendDevices = true := by
    show lessExtend [⟨"nvidia.com/gpu", .fin 1⟩] fpgaNode.ExtendDevices = true
    simp [lessExtend, hl, hge]
  have h₁ : F64.lt gpuTask.MilliCPU fpgaNode.MilliCPU = true := by
    simp only [gpuTask, fpgaNode, F64.lt, decide_eq_true_eq]
    norm_num
  have h₂ : F64.lt gpuTask.Memory fpgaNode.Memory = true := by
    simp only [gpuTask, fpgaNode, F64.lt, decide_eq_true_eq]
    norm_num
  have h₃ : F64.lt gpuTask.MilliGPU fpgaNode.MilliGPU = true := by
    simp only [gpuTask, fpgaNode, F64.lt, decide_eq_true_eq]
    norm_num
  unfold Resource.Less
  rw [hext, h₁, h₂, h₃]
  rfl

theorem scenario1Request_less_gpuTask : scenario1Request.Less gpuTask = true := by
  rw [less_iff]
  refine ⟨?_, ?_, ?_, ?_⟩
  · intro n v hv
    simp [scenario1Request] at hv
  · simp only [scenario1Request, gpuTask, f64_fin_lt_fin]
    norm_num
  · simp only [scenario1Request, gpuTask, f64_fin_lt_fin]
    norm_num
  · simp only [scenario1Request, gpuTask, f64_fin_lt_fin]
    norm_num

/-- C18, as stated, fails: `Less` is not transitive.  A NaN entry passes every comparison of
the loop over the extended entries, on either side: with FPGA entries `1`, NaN and `0` and
scalars rising from `1` to `2` to `3`, the first resource is `Less` than the second and the
second `Less` than the third, but the first is not `Less` than the third, `1 >= 0`. -/
theorem less_not_transitive :
    (levelWithFpga 1 (.fin 1)).Less (levelWithFpga 2 .nan) = true ∧
      (levelWithFpga 2 .nan).Less (levelWithFpga 3 (.fin 0)) = true ∧
      (levelWithFpga 1 (.fin 1)).Less (levelWithFpga 3 (.fin 0)) = false := by
  decide

/-- C18, amended. `Less` is irreflexive and asymmetric for all resources.  It is transitive,
including across extended maps with different key sets, when no extended entry of the middle
resource under a name of the first is NaN: if `a.Less(b)` and `b.Less(c)` and `b` has no NaN
entry under a name of `a`, then `a.Less(c)`. -/
theorem less_strict_order (a b c : Resource) :
    a.Less a = false ∧ (a.Less b = true → b.Less a = false) ∧
      (a.Less b = true → b.Less c = true →
        (∀ n v, a.ExtendDevices.lookup n = some v → b.ExtendDevices.lookup n ≠ some .nan) →
        a.Less c = true) := by
  refine ⟨by simp [Resource.Less, f64_lt_irrefl], ?_, ?_⟩
  · intro hab
    have h₁ := ((less_iff a b).mp hab).2.1
    cases hba : b.Less a with
    | false => rfl
    | true =>
      have h₂ := ((less_iff b a).mp hba).2.1
      rw [f64_lt_def] at h₁ h₂
      rw [f64_lt_asymm _ _ h₁] at h₂
      exact absurd h₂ (by simp)
  · intro hab hbc hnan
    obtain ⟨hab_ext, hab₁, hab₂, hab₃⟩ := (less_iff a b).mp hab
    obtain ⟨hbc_ext, hbc₁, hbc₂, hbc₃⟩ := (less_iff b c).mp hbc
    rw [less_iff]
    refine ⟨?_, f64_lt_trans _ _ _ hab₁ hbc₁, f64_lt_trans _ _ _ hab₂ hbc₂,
      f64_lt_trans _ _ _ hab₃ hbc₃⟩
    intro n v hv
    obtain ⟨w, hw, hvw⟩ := hab_ext n v hv
    obtain ⟨x, hx, hwx⟩ := hbc_ext n w hw
    have hw' : w ≠ .nan := by
      intro h
      rw [h] at hw
      exact hnan n v hv hw
    exact ⟨x, hx, f64_not_ge_trans v w x hw' hvw hwx⟩

/-- Witness for C18 amended: a resource without extended entries, below a task with one GPU,
below a node with two GPUs and four FPGAs. -/
theorem less_strict_order_witness :
    scenario1Request.Less gpuTask = true ∧ gpuTask.Less fpgaNode = true ∧
      scenario1Request.Less fpgaNode = true ∧ gpuTask.Less scenario1Request = false := by
  have h := less_strict_order scenario1Request gpuTask fpgaNode
  refine ⟨scenario1Request_less_gpuTask, gpuTask_less_fpgaNode, ?_,
    h.2.1 scenario1Request_less_gpuTask⟩
  refine h.2.2 scenario1Request_less_gpuTask gpuTask_less_fpgaNode ?_
  intro n v hv
  simp [scenario1Request] at hv

theorem cpu10_lessEqual_cpu5 : (cpuOnly (.fin 10)).LessEqual (cpuOnly (.fin 5)) = true := by
  have h := f64sub_small_int 5 10 (by norm_num)
  norm_num at h
  refine lessEqual_cpuOnly _ _ (Or.inr ?_)
  rw [h]
  show F64.fin |(-5 : ℚ)| < F64.fin 10
  rw [f64_fin_lt_fin]
  norm_num

theorem cpu5_lessEqual_cpu0 : (cpuOnly (.fin 5)).LessEqual (cpuOnly (.fin 0)) = true := by
  have h := f64sub_small_int 0 5 (by norm_num)
  norm_num at h
  refine lessEqual_cpuOnly _ _ (Or.inr ?_)
  rw [h]
  show F64.fin |(-5 : ℚ)| < F64.fin 10
  rw [f64_fin_lt_fin]
  norm_num

/-- C19, as stated, fails: `{cpu 10}` is `LessEqual` to `{cpu 5}` and `{cpu 5}` to `{cpu 0}`,
each difference being below the epsilon, but `{cpu 10}` is not `LessEqual` to `{cpu 0}`; and
`{cpu 5}` and `{cpu 0}` are `LessEqual` to each other without being equal. -/
theorem lessEqual_not_transitive :
    (cpuOnly (.fin 10)).LessEqual (cpuOnly (.fin 5)) = true ∧
      (cpuOnly (.fin 5)).LessEqual (cpuOnly (.fin 0)) = true ∧
      (cpuOnly (.fin 10)).LessEqual (cpuOnly (.fin 0)) = false ∧
      (cpuOnly (.fin 0)).LessEqual (cpuOnly (.fin 5)) = true ∧
      (cpuOnly (.fin 5)).MilliCPU ≠ (cpuOnly (.fin 0)).MilliCPU := by
  have h₃ := f64sub_small_int 0 10 (by norm_num)
  norm_num at h₃
  refine ⟨cpu10_lessEqual_cpu5, cpu5_lessEqual_cpu0, ?_, ?_, ?_⟩
  · cases hle : (cpuOnly (.fin 10)).LessEqual (cpuOnly (.fin 0)) with
    | false => rfl
    | true =>
      have h := (lessEqual_scalars _ _ hle).1
      have h' : F64.fin 10 < F64.fin 0 ∨
          F64.abs (f64sub (.fin 0) (.fin 10)) < F64.fin 10 := h
      rw [h₃] at h'
      rcases h' with h' | h'
      · rw [f64_fin_lt_fin] at h'
        norm_num at h'
      · have h'' : F64.fin |(-10 : ℚ)| < F64.fin 10 := h'
        rw [f64_fin_lt_fin] at h''
        norm_num at h''
  · exact lessEqual_cpuOnly _ _ (Or.inl (by rw [f64_fin_lt_fin]; norm_num))
  · intro h
    have h' : (5 : ℚ) = 0 := F64.fin.inj h
    norm_num at h'

/-- Two scalar tests in a row: the first value is smaller than the third, or both are finite
and closer than the sum of the two bounds. -/
theorem scalarWithin_chain (x y z : F64) (e₁ e₂ e : ℚ) (he₁ : 0 ≤ e₁) (he₂ : 0 ≤ e₂)
    (he : e₁ + e₂ ≤ e) (h₁ : scalarWithin x y e₁) (h₂ : scalarWithin y z e₂) :
    scalarWithin x z e := by
  unfold scalarWithin at h₁ h₂ ⊢
  rcases h₁ with h₁ | ⟨p, q, rfl, rfl, h₁⟩
  · rcases h₂ with h₂ | ⟨q, t, rfl, rfl, h₂⟩
    · exact Or.inl (f64_lt_trans _ _ _ h₁ h₂)
    · cases x with
      | fin p =>
        rw [f64_fin_lt_fin] at h₁
        by_cases hpt : p < t
        · exact Or.inl ((f64_fin_lt_fin p t).mpr hpt)
        · right
          obtain ⟨h₂l, h₂r⟩ := abs_lt.mp h₂
          refine ⟨p, t, rfl, rfl, ?_⟩
          rw [abs_lt]
          constructor <;> linarith [not_lt.mp hpt]
      | pinf => exact absurd h₁ (by simp [f64_lt_def, F64.lt])
      | ninf => exact Or.inl rfl
      | nan => exact absurd h₁ (by simp [f64_lt_def, F64.lt])
  · rcases h₂ with h₂ | ⟨q', t, hq, rfl, h₂⟩
    · cases z with
      | fin t =>
        rw [f64_fin_lt_fin] at h₂
        by_cases hpt : p < t
        · exact Or.inl ((f64_fin_lt_fin p t).mpr hpt)
        · right
          obtain ⟨h₁l, h₁r⟩ := abs_lt.mp h₁
          refine ⟨p, t, rfl, rfl, ?_⟩
          rw [abs_lt]
          constructor <;> linarith [not_lt.mp hpt]
      | pinf => exact Or.inl rfl
      | ninf => exact absurd h₂ (by simp [f64_lt_def, F64.lt])
      | nan => exact absurd h₂ (by simp [f64_lt_def, F64.lt])
    · have hq' : q = q' := F64.fin.inj hq
      subst hq'
      right
      obtain ⟨h₁l, h₁r⟩ := abs_lt.mp h₁
      obtain ⟨h₂l, h₂r⟩ := abs_lt.mp h₂
      refine ⟨p, t, rfl, rfl, ?_⟩
      rw [abs_lt]
      constructor <;> linarith

/-- C19, amended. `LessEqual` is not a partial order: because of the tolerance on the scalars
it is neither transitive nor antisymmetric.  From `a.LessEqual(b)` and `b.LessEqual(c)` it
follows that every extended name of `a` is a key of `b` and of `c`, with a value not greater
than that of `c` when the entry of `b` is not NaN, and that each scalar of `a` is smaller
than the scalar of `c`, or both are finite and their distance is below twice that
dimension's epsilon. -/
theorem lessEqual_chain (a b c : Resource) (hab : a.LessEqual b = true)
    (hbc : b.LessEqual c = true) :
    (∀ n v, a.ExtendDevices.lookup n = some v →
        ∃ w x, b.ExtendDevices.lookup n = some w ∧ c.ExtendDevices.lookup n = some x ∧
          (w ≠ .nan → ¬ v > x)) ∧
      scalarWithin a.MilliCPU c.MilliCPU (2 * 10) ∧
      scalarWithin a.Memory c.Memory (2 * (10 * 1024 * 1024)) ∧
      scalarWithin a.MilliGPU c.MilliGPU (2 * 10) := by
  obtain ⟨hab_ext, -⟩ := (lessEqual_iff a b).mp hab
  obtain ⟨hbc_ext, -⟩ := (lessEqual_iff b c).mp hbc
  obtain ⟨-, hab₁, hab₂, hab₃⟩ := (lessEqual_iff_exact a b).mp hab
  obtain ⟨-, hbc₁, hbc₂, hbc₃⟩ := (lessEqual_iff_exact b c).mp hbc
  refine ⟨?_, ?_, ?_, ?_⟩
  · intro n v hv
    obtain ⟨w, hw, hvw⟩ := hab_ext n v hv
    obtain ⟨x, hx, hwx⟩ := hbc_ext n w hw
    refine ⟨w, x, hw, hx, ?_⟩
    intro hnan
    show ¬ F64.lt x v = true
    rw [Bool.not_eq_true]
    exact f64_not_gt_trans v w x hnan hvw hwx
  · exact scalarWithin_chain _ _ _ _ _ _ (by norm_num) (by norm_num) (by norm_num) hab₁ hbc₁
  · exact scalarWithin_chain _ _ _ _ _ _ (by norm_num) (by norm_num) (by norm_num) hab₂ hbc₂
  · exact scalarWithin_chain _ _ _ _ _ _ (by norm_num) (by norm_num) (by norm_num) hab₃ hbc₃

/-- Witness for C19 amended: the chain `{cpu 10}`, `{cpu 5}`, `{cpu 0}`, where `10` is closer
to `0` than twice the epsilon. -/
theorem lessEqual_chain_witness :
    (cpuOnly (.fin 10)).LessEqual (cpuOnly (.fin 5)) = true ∧
      (cpuOnly (.fin 5)).LessEqual (cpuOnly (.fin 0)) = true ∧
      scalarWithin (cpuOnly (.fin 10)).MilliCPU (cpuOnly (.fin 0)).MilliCPU (2 * 10) :=
  ⟨cpu10_lessEqual_cpu5, cpu5_lessEqual_cpu0,
    (lessEqual_chain (cpuOnly (.fin 10)) (cpuOnly (.fin 5)) (cpuOnly (.fin 0))
      cpu10_lessEqual_cpu5 cpu5_lessEqual_cpu0).2.1⟩

/-- The scalar test of `LessEqual` of a value against itself passes exactly when the value is
neither NaN nor infinite: only then is the difference `0`, otherwise it is NaN. -/
theorem scalar_self_test_iff (x : F64) (e : ℚ) (he : 0 < e) :
    (x < x ∨ F64.abs (f64sub x x) < .fin e) ↔ ∃ p, x = .fin p := by
  cases x with
  | fin p =>
    refine ⟨fun _ => ⟨p, rfl⟩, fun _ => Or.inr ?_⟩
    rw [f64sub_fin, sub_self, ofRat_zero]
    show F64.fin |0| < F64.fin e
    rw [f64_fin_lt_fin, abs_zero]
    exact he
  | pinf => simp [f64_lt_def, F64.lt, f64sub, F64.abs]
  | ninf => simp [f64_lt_def, F64.lt, f64sub, F64.abs]
  | nan => simp [f64_lt_def, F64.lt, f64sub, F64.abs]

/-- When `LessEqual` holds of a resource against itself. -/
theorem lessEqual_self_iff (r : Resource) :
    r.LessEqual r = true ↔
      (∃ p, r.MilliCPU = .fin p) ∧ (∃ p, r.Memory = .fin p) ∧ ∃ p, r.MilliGPU = .fin p := by
  rw [lessEqual_iff]
  unfold minMilliCPU minMemory minMilliGPU
  rw [scalar_self_test_iff r.MilliCPU 10 (by norm_num),
    scalar_self_test_iff r.Memory (10 * 1024 * 1024) (by norm_num),
    scalar_self_test_iff r.MilliGPU 10 (by norm_num)]
  constructor
  · exact fun h => h.2
  · intro h
    exact ⟨fun n v hv => ⟨v, hv, f64_lt_irrefl v⟩, h⟩

/-- C20, as stated, fails: `LessEqual` is not reflexive.  For a resource with a NaN scalar
the test `r < r || |r - r| < epsilon` is false, so `r.LessEqual(r)` is false and `r.Sub(r)`
panics; the same holds for an infinite scalar, where `r - r` is NaN. -/
theorem lessEqual_not_reflexive :
    (cpuOnly .nan).LessEqual (cpuOnly .nan) = false ∧ (cpuOnly .nan).Sub (cpuOnly .nan) = none ∧
      (cpuOnly .pinf).LessEqual (cpuOnly .pinf) = false ∧
      (cpuOnly .pinf).Sub (cpuOnly .pinf) = none :=
  ⟨rfl, rfl, rfl, rfl⟩

/-- C20, amended. The strict order implies the tolerant one: `r.Less(rr)` implies
`r.LessEqual(rr)`.  The tolerant order is reflexive exactly on the resources whose three
scalars are finite (neither NaN nor infinite): for these `r.LessEqual(r)` holds and `r.Sub(r)`
does not fail; its result has the three scalars `0`, is `IsEmpty`, and has the extended names
of `r`, with value `0` for every finite entry and NaN for every entry that is NaN or
infinite. -/
theorem less_implies_lessEqual_and_sub_self (r rr : Resource) :
    (r.Less rr = true → r.LessEqual rr = true) ∧
      (r.LessEqual r = true ↔
        (∃ p, r.MilliCPU = .fin p) ∧ (∃ p, r.Memory = .fin p) ∧ ∃ p, r.MilliGPU = .fin p) ∧
      (r.LessEqual r = true →
        ∃ s, r.Sub r = some s ∧ s.MilliCPU = .fin 0 ∧ s.Memory = .fin 0 ∧
          s.MilliGPU = .fin 0 ∧ s.IsEmpty = true ∧
          (∀ n, (s.ExtendDevices.lookup n).isSome = (r.ExtendDevices.lookup n).isSome) ∧
          (∀ n p, r.ExtendDevices.lookup n = some (.fin p) →
            s.ExtendDevices.lookup n = some (.fin 0)) ∧
          ∀ n v, r.ExtendDevices.lookup n = some v → (∀ p, v ≠ .fin p) →
            s.ExtendDevices.lookup n = some .nan) := by
  have hself : ∀ p : ℚ, f64sub (.fin p) (.fin p) = .fin 0 := by
    intro p
    rw [f64sub_fin, sub_self, ofRat_zero]
  refine ⟨?_, lessEqual_self_iff r, ?_⟩
  · intro h
    obtain ⟨hext, h₁, h₂, h₃⟩ := (less_iff r rr).mp h
    rw [lessEqual_iff]
    refine ⟨?_, Or.inl h₁, Or.inl h₂, Or.inl h₃⟩
    intro n v hv
    obtain ⟨w, hw, hvw⟩ := hext n v hv
    exact ⟨w, hw, f64_gt_false_of_ge_false v w hvw⟩
  · intro hle
    obtain ⟨⟨p₁, hp₁⟩, ⟨p₂, hp₂⟩, ⟨p₃, hp₃⟩⟩ := (lessEqual_self_iff r).mp hle
    obtain ⟨s, hs, hcpu, hmem, hgpu, hsl⟩ := sub_spec r r hle
    rw [hp₁, hself] at hcpu
    rw [hp₂, hself] at hmem
    rw [hp₃, hself] at hgpu
    refine ⟨s, hs, hcpu, hmem, hgpu, ?_, ?_, ?_, ?_⟩
    · unfold Resource.IsEmpty
      rw [hcpu, hmem, hgpu]
      simp [F64.lt, minMilliCPU, minMemory, minMilliGPU]
    · intro n
      rw [hsl]
      cases r.ExtendDevices.lookup n <;> rfl
    · intro n p hn
      rw [hsl, hn]
      show some (f64sub (.fin p) (.fin p)) = some (.fin 0)
      rw [hself]
    · intro n v hn hv
      rw [hsl, hn]
      show some (f64sub v v) = some .nan
      cases v with
      | fin p => exact absurd rfl (hv p)
      | pinf => rfl
      | ninf => rfl
      | nan => rfl

/-- Witness for C20 amended: the one-GPU task is `Less` than the node, hence `LessEqual`; the
node minus itself has zero scalars and zero GPUs and FPGAs. -/
theorem less_implies_lessEqual_and_sub_self_witness :
    gpuTask.LessEqual fpgaNode = true ∧ fpgaNode.LessEqual fpgaNode = true ∧
      ∃ s, fpgaNode.Sub fpgaNode = some s ∧ s.IsEmpty = true ∧
        s.ExtendDevices.lookup "nvidia.com/gpu" = some (.fin 0) ∧
        s.ExtendDevices.lookup "example.com/fpga" = some (.fin 0) := by
  have hrefl : fpgaNode.LessEqual fpgaNode = true :=
    (less_implies_lessEqual_and_sub_self fpgaNode fpgaNode).2.1.mpr
      ⟨⟨_, rfl⟩, ⟨_, rfl⟩, ⟨_, rfl⟩⟩
  refine ⟨(less_implies_lessEqual_and_sub_self gpuTask fpgaNode).1 gpuTask_less_fpgaNode,
    hrefl, ?_⟩
  obtain ⟨s, hs, -, -, -, hempty, -, hfin, -⟩ :=
    (less_implies_lessEqual_and_sub_self fpgaNode fpgaNode).2.2 hrefl
  exact ⟨s, hs, hempty, hfin "nvidia.com/gpu" 2 rfl, hfin "example.com/fpga" 4 rfl⟩

end KubeArbitrator
